import Mathlib

set_option maxRecDepth 4000

/-!
Verification development for the `merkle_light` Merkle tree library
(`src/merkle/src/merkle.rs`).

The element type `T` of the Rust code is modelled by a type `α` with an
`Inhabited` instance (Rust `Element : Default`).  The hash `Algorithm` is
modelled by two pure functions, `leafH : α → α` for `Algorithm::leaf` and
`node : α → α → Nat → α` for `Algorithm::node` (the Rust code calls them on a
fresh/reset instance each time, so they act as pure functions of their
arguments).  Stores are modelled at element granularity: a `VecStore<E>` is a
`List α`; the byte-level serialization (`E::byte_len`, `from_slice`,
`copy_to_slice`) is invisible at this level because every store operation
reads and writes whole elements.
-/

namespace MerkleLight

/-- `next_pow2` from merkle.rs: bit-smearing cascade on a 64-bit `usize`.
On `Nat` the cascade is exact for inputs below `2 ^ 64`. -/
def nextPow2 (n : Nat) : Nat :=
  let n := n - 1
  let n := n ||| (n >>> 1)
  let n := n ||| (n >>> 2)
  let n := n ||| (n >>> 4)
  let n := n ||| (n >>> 8)
  let n := n ||| (n >>> 16)
  let n := n ||| (n >>> 32)
  n + 1

/-- `usize::trailing_zeros`, which `log2_pow2` calls: for `0` a 64-bit word
reports 64, otherwise count factors of two. -/
def trailingZeros (n : Nat) : Nat :=
  if n = 0 then 64
  else if n % 2 = 1 then 0
  else trailingZeros (n / 2) + 1
decreasing_by
  rename_i h0 _
  exact Nat.div_lt_self (Nat.pos_of_ne_zero h0) (by omega)

/-- `log2_pow2` from merkle.rs: `n.trailing_zeros()`. -/
def log2Pow2 (n : Nat) : Nat := trailingZeros n

variable {α : Type}

/-- One parent row of `node` hashes: models
`chunk_nodes.chunks(2).map(|p| A::default().node(p[0], p[1], level))`.
A trailing odd element produces nothing (the build only ever hashes
even-length chunks). -/
def hashPairs (node : α → α → Nat → α) (lev : Nat) : List α → List α
  | x :: y :: rest => node x y lev :: hashPairs node lev rest
  | _ => []

/-- `VecStore::write_range`: resize with `E::default()` up to `start + |buf|`
if the store is shorter, then splice `buf` over `[start, start + |buf|)`. -/
def writeRange [Inhabited α] (store : List α) (buf : List α) (start : Nat) : List α :=
  let resized := store ++ List.replicate (start + buf.length - store.length) default
  resized.take start ++ buf ++ resized.drop (start + buf.length)

/-- The hard-coded chunk size of the parallel dispatch in `build`. -/
def chunkSize : Nat := 1024

theorem chunkSize_pos : 0 < chunkSize := by norm_num [chunkSize]

theorem chunkSize_even : chunkSize % 2 = 0 := by norm_num [chunkSize]

/-- `Vec::from_iter((read_start..read_start + width).step_by(chunk_size))`:
the start index of every parallel chunk of the current level. -/
def chunkIndices (readStart width : Nat) : List Nat :=
  (List.range ((width + chunkSize - 1) / chunkSize)).map
    (fun k => readStart + k * chunkSize)

/-- The body of the `for_each` closure in `build` for one chunk start index
`ci`: read `chunk_size` nodes of the current level (from `leaves` at level 0,
from the store being written otherwise), hash each pair, and `write_range`
the parents at `write_start + (chunk_index - read_start) / 2`. -/
def chunkOp [Inhabited α] (node : α → α → Nat → α)
    (lev readStart writeStart width : Nat) (leaves : List α)
    (topHalf : List α) (ci : Nat) : List α :=
  let csize := min chunkSize (readStart + width - ci)
  let readStore := if lev = 0 then leaves else topHalf
  let chunkNodes := (readStore.drop ci).take csize
  let hashed := hashPairs node lev chunkNodes
  let writeDelta := (ci - readStart) / 2
  writeRange topHalf hashed (writeStart + writeDelta)

/-- The level loop of `MerkleTree::build`.  State: the two stores, the current
`level`, its `width` and the global index `level_node_index` of its first
node.  Each iteration duplicates the last node when the width is odd and then
folds the chunk operations over the chunk start indices; the sequential fold
is the canonical (in-order) execution of the parallel dispatch, which theorem
`buildLoop_chunk_determinism` shows to be order-independent. -/
def buildLoop [Inhabited α] (node : α → α → Nat → α)
    (leaves topHalf : List α) (level width levelNodeIndex : Nat) :
    List α × List α :=
  if h : width ≤ 1 then (leaves, topHalf)
  else
    -- Odd number of nodes, duplicate last (`read_at(len - 1)` then `push`).
    let dup := width % 2 = 1
    let leaves' := if dup ∧ level = 0 then
        leaves ++ [leaves.getD (leaves.length - 1) default] else leaves
    let topHalf' := if dup ∧ level ≠ 0 then
        topHalf ++ [topHalf.getD (topHalf.length - 1) default] else topHalf
    let width' := if dup then width + 1 else width
    let readStart := if level = 0 then 0 else levelNodeIndex - leaves'.length
    let writeStart := if level = 0 then 0 else readStart + width'
    let topHalf'' := (chunkIndices readStart width').foldl
        (chunkOp node level readStart writeStart width' leaves') topHalf'
    buildLoop node leaves' topHalf'' (level + 1) (width' >>> 1)
      (levelNodeIndex + width')
termination_by width
decreasing_by
  simp only [Nat.shiftRight_one]
  split <;> omega

/-- The `MerkleTree` record: the two stores, the original leaf count, the
level count and the cached root. -/
structure MerkleTree (α : Type) where
  leaves : List α
  topHalf : List α
  leafs : Nat
  height : Nat
  root : α
  deriving Repr, DecidableEq

/-- `MerkleTree::build`: run the level loop and cache
`top_half.read_at(top_half.len() - 1)` as the root.  (The Rust code also
asserts `height == level + 1`; theorem `fromIter_height` proves the assertion
holds for every caller.) -/
def build [Inhabited α] (node : α → α → Nat → α)
    (leaves topHalf : List α) (leafs height : Nat) : MerkleTree α :=
  let p := buildLoop node leaves topHalf 0 leafs 0
  { leaves := p.1, topHalf := p.2, leafs := leafs, height := height
    root := p.2.getD (p.2.length - 1) default }

/-- `MerkleTree::from_iter`: hash every item with `Algorithm::leaf`, push the
results into a fresh leaves store and build. -/
def fromIter [Inhabited α] (node : α → α → Nat → α) (leafH : α → α)
    (items : List α) : MerkleTree α :=
  let leafs := items.length
  let pow := nextPow2 leafs
  build node (items.map leafH) [] leafs (log2Pow2 (2 * pow))

/-- `MerkleTree::from_byte_slice`: the leaves store is prefilled with
`K::new_from_slice(pow, leafs)`, which decodes the raw bytes back into
elements without any hashing; the byte round trip
(`concat` then `from_slice` chunk by chunk) is the identity on the element
list, so the model receives the decoded element list directly. -/
def fromByteSlice [Inhabited α] (node : α → α → Nat → α)
    (decodedLeafs : List α) : MerkleTree α :=
  let leafsCount := decodedLeafs.length
  let pow := nextPow2 leafsCount
  build node decodedLeafs [] leafsCount (log2Pow2 (2 * pow))

/-- `MerkleTree::root`: returns the cached copy, no store access. -/
def rootFn (t : MerkleTree α) : α := t.root

/-- `MerkleTree::len`: sum of the lengths of the two stores. -/
def treeLen (t : MerkleTree α) : Nat := t.leaves.length + t.topHalf.length

/-- `MerkleTree::read_at`: read from `leaves` below `leaves.len()`, from
`top_half` (shifted) above.  The store reads are modelled by `getD` with the
`Default` element. -/
def treeReadAt [Inhabited α] (t : MerkleTree α) (i : Nat) : α :=
  if i < t.leaves.length then t.leaves.getD i default
  else t.topHalf.getD (i - t.leaves.length) default

/-- The `while base + 1 < len` loop of `gen_proof`, parameterized by the
read function and total length.  `fuel` is a termination bound only: the loop
body is executed exactly as in the source while `base + 1 < len`, and
`genProofLoop_spec` shows `fuel = len` is never exhausted on a built tree. -/
def genProofLoop (readAt : Nat → α) (len : Nat) :
    Nat → Nat → Nat → Nat → List α × List Bool
  | 0, _, _, _ => ([], [])
  | fuel + 1, base, j, width =>
    if base + 1 < len then
      let sib := if j % 2 = 0 then readAt (base + j + 1) else readAt (base + j - 1)
      let width1 := width >>> 1
      let width2 := if width1 % 2 = 1 then width1 + 1 else width1
      let rest := genProofLoop readAt len fuel (base + width) (j >>> 1) width2
      (sib :: rest.1, (j % 2 == 0) :: rest.2)
    else ([], [])

/-- `MerkleTree::gen_proof`: the leaf, then one sibling per level, then the
cached root; the path records `j & 1 == 0` at every level. -/
def genProof [Inhabited α] (t : MerkleTree α) (i : Nat) : List α × List Bool :=
  let width := if t.leafs % 2 = 1 then t.leafs + 1 else t.leafs
  let rest := genProofLoop (treeReadAt t) (treeLen t) (treeLen t) 0 i width
  (treeReadAt t i :: rest.1 ++ [rootFn t], rest.2)

/-! ## Level-structure model

`buildLoop` is characterized below (`buildLoop_eq`) through a clean
level-by-level recursion: `rawLevel` is the list of nodes a level holds as
they are computed, `storedLevel` the contents a level has in its store after
the whole build (the padding duplicate included), `levelStart` the global
index of a level's first node. -/

/-- Pad a level of odd width by duplicating its last node
(`read_at(len - 1)` then `push`). -/
def padE [Inhabited α] (xs : List α) : List α :=
  if xs.length % 2 = 1 then xs ++ [xs.getD (xs.length - 1) default] else xs

theorem length_hashPairs (node : α → α → Nat → α) (lev : Nat) :
    ∀ xs : List α, (hashPairs node lev xs).length = xs.length / 2
  | [] => by simp [hashPairs]
  | [_] => by simp [hashPairs]
  | _ :: _ :: rest => by
    simp only [hashPairs, List.length_cons, length_hashPairs node lev rest]
    omega

theorem hashPairs_append (node : α → α → Nat → α) (lev : Nat) :
    ∀ a b : List α, a.length % 2 = 0 →
      hashPairs node lev (a ++ b) = hashPairs node lev a ++ hashPairs node lev b
  | [], _, _ => by simp [hashPairs]
  | [x], _, h => by simp at h
  | x :: y :: rest, b, h => by
    simp only [List.cons_append, hashPairs, List.length_cons, List.append_eq] at *
    rw [hashPairs_append node lev rest b (by omega)]

theorem length_padE [Inhabited α] (xs : List α) :
    (padE xs).length = xs.length + xs.length % 2 := by
  unfold padE; split <;> simp <;> omega

theorem padE_of_even [Inhabited α] (xs : List α) (h : xs.length % 2 = 0) :
    padE xs = xs := by
  unfold padE; simp [h]

theorem length_padE_even [Inhabited α] (xs : List α) :
    (padE xs).length % 2 = 0 := by
  rw [length_padE]; omega

/-- Nodes of level `k`, as computed (without the padding duplicate):
level 0 holds the hashed leaves, level `k + 1` the `node`-hashes of the
padded level `k`. -/
def rawLevel [Inhabited α] (node : α → α → Nat → α) (lhs : List α) :
    Nat → List α
  | 0 => lhs
  | k + 1 => hashPairs node k (padE (rawLevel node lhs k))

/-- Contents of level `k` in its store after the build: padded unless the
level never entered the loop (the root level of width 1). -/
def storedLevel [Inhabited α] (node : α → α → Nat → α) (lhs : List α)
    (k : Nat) : List α :=
  if (rawLevel node lhs k).length ≤ 1 then rawLevel node lhs k
  else padE (rawLevel node lhs k)

/-- Global index of the first node of level `k` in the unified node array. -/
def levelStart [Inhabited α] (node : α → α → Nat → α) (lhs : List α) :
    Nat → Nat
  | 0 => 0
  | k + 1 => levelStart node lhs k + (storedLevel node lhs k).length

/-- Width of level `k` as computed (`rawLevel` length), as a pure function
of the leaf count. -/
def widthAt (n : Nat) : Nat → Nat
  | 0 => n
  | k + 1 => (widthAt n k + widthAt n k % 2) / 2

/-- Number of iterations of the level loop for `n` leaves (the final value
of `level`); the built tree has `iterCount n + 1` levels. -/
def iterCount (n : Nat) : Nat :=
  if n ≤ 1 then 0 else iterCount ((n + n % 2) / 2) + 1
decreasing_by omega

/-- The contents the `top_half` store ends with when the loop is entered at
level `lev` whose store-so-far ends exactly with the freshly written
`cur = rawLevel lev`. -/
def topFrom [Inhabited α] (node : α → α → Nat → α) (lev : Nat)
    (cur : List α) : List α :=
  if cur.length ≤ 1 then cur
  else padE cur ++ topFrom node (lev + 1) (hashPairs node lev (padE cur))
termination_by cur.length
decreasing_by
  have h1 : (padE cur).length ≤ cur.length + 1 := by
    unfold padE; split <;> simp <;> omega
  have h2 : (hashPairs node lev (padE cur)).length = (padE cur).length / 2 :=
    length_hashPairs node lev (padE cur)
  omega

/-! ## Chunk-fold characterization -/

theorem take_split_drop {β : Type} (l : List β) (i a b : Nat) :
    (l.drop i).take (a + b) = (l.drop i).take a ++ (l.drop (i + a)).take b := by
  rw [List.take_add]
  congr 2
  rw [List.drop_drop]

theorem slice_append {β : Type} (a b : List β) (i k : Nat)
    (h : i + k ≤ a.length) :
    ((a ++ b).drop i).take k = (a.drop i).take k := by
  rw [List.drop_append_eq_append_drop, Nat.sub_eq_zero_of_le (by omega),
    List.drop_zero, List.take_append_eq_append_take,
    Nat.sub_eq_zero_of_le (by simp; omega), List.take_zero, List.append_nil]

theorem writeRange_append [Inhabited α] (s buf : List α) :
    writeRange s buf s.length = s ++ buf := by
  unfold writeRange
  simp only [Nat.add_sub_cancel_left]
  rw [List.take_append_eq_append_take, Nat.sub_self, List.take_zero,
    List.append_nil, List.take_length,
    List.drop_eq_nil_of_le (by simp), List.append_nil]

theorem chunkIndices_nil (rs : Nat) : chunkIndices rs 0 = [] := by
  simp [chunkIndices, chunkSize]

theorem chunkIndices_cons (rs width : Nat) (h : 1 ≤ width) :
    chunkIndices rs width
      = rs :: chunkIndices (rs + chunkSize) (width - chunkSize) := by
  unfold chunkIndices
  have hcount : (width + chunkSize - 1) / chunkSize
      = (width - chunkSize + chunkSize - 1) / chunkSize + 1 := by
    rcases le_or_lt width chunkSize with hle | hlt
    · have h2 : width - chunkSize = 0 := by omega
      have h1 : (width + chunkSize - 1) / chunkSize = 1 :=
        Nat.div_eq_of_lt_le (by omega) (by have := chunkSize_pos; omega)
      have h3 : (width - chunkSize + chunkSize - 1) / chunkSize = 0 := by
        rw [h2]; exact Nat.div_eq_of_lt (by have := chunkSize_pos; omega)
      rw [h1, h3]
    · have h1 : width + chunkSize - 1 = (width - 1) + chunkSize := by omega
      have h2 : width - chunkSize + chunkSize - 1 = width - 1 := by omega
      rw [h1, h2, Nat.add_div_right _ chunkSize_pos]
  rw [hcount, List.range_succ_eq_map]
  simp only [List.map_cons, Nat.zero_mul, Nat.add_zero, List.map_map]
  congr 1
  apply List.map_congr_left
  intro k _
  simp [Nat.succ_mul]; ring

theorem mem_chunkIndices (rs width ci : Nat)
    (h : ci ∈ chunkIndices rs width) :
    ∃ k, k * chunkSize < width ∧ ci = rs + k * chunkSize := by
  simp only [chunkIndices, List.mem_map, List.mem_range] at h
  obtain ⟨k, hk, rfl⟩ := h
  refine ⟨k, ?_, rfl⟩
  have h1 : ((width + chunkSize - 1) / chunkSize) * chunkSize
      ≤ width + chunkSize - 1 := Nat.div_mul_le_self _ _
  have h2 : (k + 1) * chunkSize ≤ ((width + chunkSize - 1) / chunkSize) * chunkSize :=
    Nat.mul_le_mul_right _ hk
  simp [chunkSize] at *
  omega

/-- In-order execution of all chunks of one level appends exactly the
`hashPairs` image of the level to the destination store.  `s0` is the
destination store when the chunk loop starts, `acc` what the already
executed chunks appended, `wrem` the width not yet consumed. -/
theorem foldl_chunkOp [Inhabited α] (node : α → α → Nat → α) (lev : Nat)
    (leaves s0 src : List α) (rs ws wtot : Nat)
    (hsrcdef : src = if lev = 0 then leaves else s0)
    (hsrc : rs + wtot ≤ src.length)
    (hws : ws = s0.length) (hweven : wtot % 2 = 0) :
    ∀ wrem acc, wrem ≤ wtot → wrem % 2 = 0 →
      acc.length = (wtot - wrem) / 2 →
      (chunkIndices (rs + (wtot - wrem)) wrem).foldl
          (chunkOp node lev rs ws wtot leaves) (s0 ++ acc)
        = s0 ++ acc ++ hashPairs node lev
            ((src.drop (rs + (wtot - wrem))).take wrem)
  | 0, acc, _, _, _ => by
    simp [chunkIndices_nil, hashPairs]
  | wrem + 1, acc, hle, heven, hacc => by
    have hw2 : 2 ≤ wrem + 1 := by omega
    rw [chunkIndices_cons _ _ (by omega), List.foldl_cons]
    have hstep : chunkOp node lev rs ws wtot leaves (s0 ++ acc)
        (rs + (wtot - (wrem + 1)))
        = (s0 ++ acc) ++ hashPairs node lev
            ((src.drop (rs + (wtot - (wrem + 1)))).take
              (min chunkSize (wrem + 1))) := by
      have hcs : rs + wtot - (rs + (wtot - (wrem + 1))) = wrem + 1 := by omega
      have hread : ((if lev = 0 then leaves else s0 ++ acc).drop
            (rs + (wtot - (wrem + 1)))).take (min chunkSize (wrem + 1))
          = (src.drop (rs + (wtot - (wrem + 1)))).take
              (min chunkSize (wrem + 1)) := by
        rcases Nat.eq_zero_or_pos lev with h0 | hpos
        · simp [h0, hsrcdef]
        · have hne : ¬ lev = 0 := by omega
          have hs0 : src = s0 := by simp [hsrcdef, hne]
          simp only [hne, if_false, hs0]
          apply slice_append
          have := Nat.min_le_right chunkSize (wrem + 1)
          rw [hs0] at hsrc
          omega
      have hdelta : (rs + (wtot - (wrem + 1)) - rs) / 2 = acc.length := by omega
      have hlen : ws + acc.length = (s0 ++ acc).length := by simp [hws]
      simp only [chunkOp, hcs, hread, hdelta, hlen, writeRange_append]
    rw [hstep]
    rcases le_or_lt (wrem + 1) chunkSize with hle2 | hlt2
    · -- final chunk: it consumes the whole remaining width
      have hmin : min chunkSize (wrem + 1) = wrem + 1 := by omega
      have hz : wrem + 1 - chunkSize = 0 := by omega
      rw [hmin, hz, chunkIndices_nil, List.foldl_nil, List.append_assoc]
    · -- full chunk of `chunkSize` pairs, recurse on the rest
      have hmin : min chunkSize (wrem + 1) = chunkSize := by omega
      rw [hmin]
      have htk : ((src.drop (rs + (wtot - (wrem + 1)))).take chunkSize).length
          = chunkSize := by
        rw [List.length_take, List.length_drop]
        omega
      have hrec := foldl_chunkOp node lev leaves s0 src rs ws wtot hsrcdef hsrc
        hws hweven (wrem + 1 - chunkSize)
        (acc ++ hashPairs node lev
          ((src.drop (rs + (wtot - (wrem + 1)))).take chunkSize))
        (by omega) (by simp [chunkSize] at heven ⊢; omega) ?hacc2
      case hacc2 =>
        rw [List.length_append, length_hashPairs, htk, hacc]
        simp [chunkSize] at hlt2 ⊢
        omega
      have harg : rs + (wtot - (wrem + 1)) + chunkSize
          = rs + (wtot - (wrem + 1 - chunkSize)) := by omega
      rw [← harg, ← List.append_assoc] at hrec
      rw [hrec, List.append_assoc]
      congr 1
      rw [← hashPairs_append node lev _ _ (by rw [htk]; exact chunkSize_even)]
      congr 1
      have hspl := take_split_drop src (rs + (wtot - (wrem + 1))) chunkSize
        (wrem + 1 - chunkSize)
      have hs : chunkSize + (wrem + 1 - chunkSize) = wrem + 1 := by omega
      rw [hs] at hspl
      exact hspl.symm
termination_by wrem _ _ _ _ => wrem
decreasing_by all_goals (simp [chunkSize]; omega)

theorem getD_append_left [Inhabited α] (a b : List α) (i : Nat)
    (h : i < a.length) : (a ++ b).getD i default = a.getD i default := by
  rw [List.getD_eq_getElem?_getD, List.getD_eq_getElem?_getD,
    List.getElem?_append_left h]

theorem getD_append_right [Inhabited α] (a b : List α) (i : Nat)
    (h : a.length ≤ i) :
    (a ++ b).getD i default = b.getD (i - a.length) default := by
  rw [List.getD_eq_getElem?_getD, List.getD_eq_getElem?_getD,
    List.getElem?_append_right h]

theorem getD_last_append [Inhabited α] (prev cur : List α) (h : cur ≠ []) :
    (prev ++ cur).getD ((prev ++ cur).length - 1) default
      = cur.getD (cur.length - 1) default := by
  have hc : 1 ≤ cur.length := List.length_pos.mpr h
  rw [List.length_append, getD_append_right prev cur _ (by omega)]
  congr 1
  omega

theorem padE_append [Inhabited α] (prev cur : List α) (h : cur ≠ []) :
    (if cur.length % 2 = 1 then
        (prev ++ cur) ++ [(prev ++ cur).getD ((prev ++ cur).length - 1) default]
      else prev ++ cur) = prev ++ padE cur := by
  unfold padE
  split
  · rw [getD_last_append prev cur h, List.append_assoc]
  · rfl

/-- One iteration of the level loop entered at level `lev ≥ 1`, where the
`top_half` store ends exactly with the unpadded current level `cur`, yields
`topFrom`. -/
theorem buildLoop_from [Inhabited α] (node : α → α → Nat → α)
    (cur prev leaves : List α) (lev : Nat) (hlev : 1 ≤ lev) :
    buildLoop node leaves (prev ++ cur) lev cur.length
        (leaves.length + prev.length)
      = (leaves, prev ++ topFrom node lev cur) := by
  by_cases hw : cur.length ≤ 1
  · rw [buildLoop, topFrom]
    simp [hw]
  · have hlev0 : lev ≠ 0 := by omega
    have hcur : cur ≠ [] := by
      intro hnil; rw [hnil] at hw; simp at hw
    rw [buildLoop, dif_neg hw]
    simp only [hlev0, and_false, if_false, and_true, ne_eq,
      not_false_eq_true, if_true, if_false]
    rw [Nat.add_sub_cancel_left, padE_append prev cur hcur]
    have hwidth : (if cur.length % 2 = 1 then cur.length + 1 else cur.length)
        = (padE cur).length := by
      rw [length_padE]; split <;> omega
    rw [hwidth]
    have hfold := foldl_chunkOp node lev leaves (prev ++ padE cur)
      (prev ++ padE cur) prev.length (prev.length + (padE cur).length)
      (padE cur).length (by simp [hlev0]) (by simp)
      (by simp) (length_padE_even cur) (padE cur).length []
      le_rfl (length_padE_even cur) (by simp)
    simp only [Nat.sub_self, Nat.add_zero, List.append_nil] at hfold
    rw [List.drop_left, List.take_length] at hfold
    rw [hfold, Nat.shiftRight_one, ← length_hashPairs node lev (padE cur)]
    have hlni : leaves.length + prev.length + (padE cur).length
        = leaves.length + (prev ++ padE cur).length := by
      rw [List.length_append]; omega
    rw [hlni,
      buildLoop_from node (hashPairs node lev (padE cur)) (prev ++ padE cur)
        leaves (lev + 1) (by omega)]
    conv_rhs => rw [topFrom, if_neg hw]
    rw [List.append_assoc]
termination_by cur.length
decreasing_by
  rw [length_hashPairs, length_padE]
  omega

/-- Entering the level loop at level 0 (fresh empty `top_half`): the leaves
store ends padded and the `top_half` holds all upper levels. -/
theorem buildLoop_zero [Inhabited α] (node : α → α → Nat → α)
    (lhs : List α) (h2 : 2 ≤ lhs.length) :
    buildLoop node lhs [] 0 lhs.length 0
      = (padE lhs, topFrom node 1 (hashPairs node 0 (padE lhs))) := by
  have hw : ¬ lhs.length ≤ 1 := by omega
  have hcur : lhs ≠ [] := by
    intro hnil; rw [hnil] at h2; simp at h2
  rw [buildLoop, dif_neg hw]
  simp only [and_true, ne_eq, not_true_eq_false, and_false, if_false, if_true]
  have hpad : (if lhs.length % 2 = 1 then
      lhs ++ [lhs.getD (lhs.length - 1) default] else lhs) = padE lhs := by
    unfold padE; rfl
  rw [hpad]
  have hwidth : (if lhs.length % 2 = 1 then lhs.length + 1 else lhs.length)
      = (padE lhs).length := by
    rw [length_padE]; split <;> omega
  rw [hwidth]
  have hfold := foldl_chunkOp node 0 (padE lhs) [] (padE lhs) 0 0
    (padE lhs).length (by simp) (by simp) (by simp) (length_padE_even lhs)
    (padE lhs).length [] le_rfl (length_padE_even lhs) (by simp)
  simp only [Nat.sub_self, Nat.add_zero, Nat.zero_add, List.append_nil,
    List.nil_append, List.drop_zero, List.take_length] at hfold
  rw [hfold, Nat.shiftRight_one, ← length_hashPairs node 0 (padE lhs)]
  have hmain := buildLoop_from node (hashPairs node 0 (padE lhs)) [] (padE lhs)
    1 le_rfl
  simpa using hmain

/-- `build` as the callers use it (fresh empty `top_half` store, leaf count =
length of the pushed leaf list): closed form of both stores and the root. -/
theorem build_eq [Inhabited α] (node : α → α → Nat → α) (lhs : List α)
    (h2 : 2 ≤ lhs.length) (ht : Nat) :
    build node lhs [] lhs.length ht
      = { leaves := padE lhs,
          topHalf := topFrom node 1 (rawLevel node lhs 1),
          leafs := lhs.length, height := ht,
          root := (topFrom node 1 (rawLevel node lhs 1)).getD
            ((topFrom node 1 (rawLevel node lhs 1)).length - 1) default } := by
  simp only [build, buildLoop_zero node lhs h2]
  rfl

theorem rawLevel_length [Inhabited α] (node : α → α → Nat → α)
    (lhs : List α) : ∀ k, (rawLevel node lhs k).length = widthAt lhs.length k
  | 0 => rfl
  | k + 1 => by
    simp only [rawLevel, widthAt, length_hashPairs, length_padE,
      rawLevel_length node lhs k]

theorem widthAt_succ (n : Nat) :
    ∀ k, widthAt n (k + 1) = widthAt ((n + n % 2) / 2) k
  | 0 => rfl
  | k + 1 => by
    show (widthAt n (k + 1) + widthAt n (k + 1) % 2) / 2 = _
    rw [widthAt_succ n k]
    rfl

theorem widthAt_pos : ∀ n k, 1 ≤ n → 1 ≤ widthAt n k := by
  intro n k
  induction k with
  | zero => exact fun h => h
  | succ k ih =>
    intro hn
    have := ih hn
    show 1 ≤ (widthAt n k + widthAt n k % 2) / 2
    omega

theorem widthAt_iterCount : ∀ n, 1 ≤ n → widthAt n (iterCount n) = 1
  | n, hn => by
    by_cases h1 : n ≤ 1
    · have hn1 : n = 1 := by omega
      subst hn1
      rw [iterCount]
      simp [widthAt]
    · have hm : 1 ≤ (n + n % 2) / 2 := by omega
      have hrec := widthAt_iterCount ((n + n % 2) / 2) hm
      rw [iterCount, if_neg h1, widthAt_succ]
      exact hrec
termination_by n _ => n
decreasing_by omega

theorem widthAt_ge_two : ∀ n k, k < iterCount n → 2 ≤ widthAt n k
  | n, k, hk => by
    by_cases h1 : n ≤ 1
    · rw [iterCount, if_pos h1] at hk
      omega
    · match k with
      | 0 => show 2 ≤ n; omega
      | k + 1 =>
        rw [iterCount, if_neg h1] at hk
        rw [widthAt_succ]
        exact widthAt_ge_two ((n + n % 2) / 2) k (by omega)
termination_by n k _ => n
decreasing_by omega

theorem iterCount_pos (n : Nat) (h2 : 2 ≤ n) : 1 ≤ iterCount n := by
  rw [iterCount, if_neg (by omega)]
  omega

/-- Length of the stored form of a level: the padded width below the root,
`1` at the root. -/
theorem storedLevel_length [Inhabited α] (node : α → α → Nat → α)
    (lhs : List α) (k : Nat) (hk : k < iterCount lhs.length) :
    (storedLevel node lhs k).length
      = widthAt lhs.length k + widthAt lhs.length k % 2 := by
  have h2 := widthAt_ge_two lhs.length k hk
  rw [storedLevel, if_neg (by rw [rawLevel_length]; omega), length_padE,
    rawLevel_length]

theorem storedLevel_length_root [Inhabited α] (node : α → α → Nat → α)
    (lhs : List α) (h1 : 1 ≤ lhs.length) :
    (storedLevel node lhs (iterCount lhs.length)).length = 1 := by
  have hone := widthAt_iterCount lhs.length h1
  rw [storedLevel, if_pos (by rw [rawLevel_length]; omega), rawLevel_length,
    hone]

/-- The unified node array of a built tree: leaves store followed by
`top_half` store. -/
def treeNodes [Inhabited α] (node : α → α → Nat → α) (lhs : List α) :
    List α :=
  padE lhs ++ topFrom node 1 (rawLevel node lhs 1)

theorem storedLevel_zero [Inhabited α] (node : α → α → Nat → α)
    (lhs : List α) (h2 : 2 ≤ lhs.length) :
    storedLevel node lhs 0 = padE lhs := by
  rw [storedLevel, if_neg (by show ¬ lhs.length ≤ 1; omega)]
  rfl

theorem topFrom_unfold_level [Inhabited α] (node : α → α → Nat → α)
    (lhs : List α) (k : Nat) (hk : 2 ≤ (rawLevel node lhs k).length) :
    topFrom node k (rawLevel node lhs k)
      = storedLevel node lhs k
          ++ topFrom node (k + 1) (rawLevel node lhs (k + 1)) := by
  rw [topFrom, if_neg (by omega), storedLevel, if_neg (by omega)]
  rfl

theorem topFrom_root_level [Inhabited α] (node : α → α → Nat → α)
    (lhs : List α) (k : Nat) (hk : (rawLevel node lhs k).length ≤ 1) :
    topFrom node k (rawLevel node lhs k) = storedLevel node lhs k := by
  rw [topFrom, if_pos hk, storedLevel, if_pos hk]

/-- Dropping a level's global start index from the node array leaves the
suffix starting with that level. -/
theorem treeNodes_drop [Inhabited α] (node : α → α → Nat → α)
    (lhs : List α) (h2 : 2 ≤ lhs.length) :
    ∀ k, 1 ≤ k → (∀ j, 1 ≤ j → j < k → 2 ≤ (rawLevel node lhs j).length) →
      (treeNodes node lhs).drop (levelStart node lhs k)
        = topFrom node k (rawLevel node lhs k)
  | 1, _, _ => by
    show (treeNodes node lhs).drop
        (levelStart node lhs 0 + (storedLevel node lhs 0).length) = _
    rw [storedLevel_zero node lhs h2, treeNodes]
    show (padE lhs ++ _).drop (0 + (padE lhs).length) = _
    rw [Nat.zero_add, List.drop_left]
  | k + 2, _, hall => by
    have hk2 : 2 ≤ (rawLevel node lhs (k + 1)).length :=
      hall (k + 1) (by omega) (by omega)
    show (treeNodes node lhs).drop
        (levelStart node lhs (k + 1) + (storedLevel node lhs (k + 1)).length)
        = _
    rw [← List.drop_drop,
      treeNodes_drop node lhs h2 (k + 1) (by omega)
        (fun j hj1 hj2 => hall j hj1 (by omega)),
      topFrom_unfold_level node lhs (k + 1) hk2, List.drop_left]

/-- Reading the node array inside a level returns that level's stored
node. -/
theorem treeNodes_getD [Inhabited α] (node : α → α → Nat → α)
    (lhs : List α) (h2 : 2 ≤ lhs.length) (k m : Nat)
    (hall : ∀ j, 1 ≤ j → j < k → 2 ≤ (rawLevel node lhs j).length)
    (hm : m < (storedLevel node lhs k).length) :
    (treeNodes node lhs).getD (levelStart node lhs k + m) default
      = (storedLevel node lhs k).getD m default := by
  rcases Nat.eq_zero_or_pos k with rfl | hk
  · show (treeNodes node lhs).getD (0 + m) default = _
    rw [Nat.zero_add, treeNodes, storedLevel_zero node lhs h2] at *
    exact getD_append_left _ _ m hm
  · have hdrop := treeNodes_drop node lhs h2 k hk hall
    have hidx : (treeNodes node lhs).getD (levelStart node lhs k + m) default
        = ((treeNodes node lhs).drop (levelStart node lhs k)).getD m default := by
      rw [List.getD_eq_getElem?_getD, List.getD_eq_getElem?_getD,
        List.getElem?_drop]
    rw [hidx, hdrop]
    by_cases hroot : (rawLevel node lhs k).length ≤ 1
    · rw [topFrom_root_level node lhs k hroot]
    · rw [topFrom_unfold_level node lhs k (by omega)]
      exact getD_append_left _ _ m hm

/-- Total length of the `top_half` store counted level by level. -/
theorem topFrom_length_levels [Inhabited α] (node : α → α → Nat → α)
    (lhs : List α) (h1 : 1 ≤ lhs.length) :
    ∀ d k, 1 ≤ k → k + d = iterCount lhs.length →
      (topFrom node k (rawLevel node lhs k)).length + levelStart node lhs k
        = levelStart node lhs (iterCount lhs.length) + 1
  | 0, k, _, hkd => by
    have hk : k = iterCount lhs.length := by omega
    rw [hk, topFrom_root_level node lhs _
        (by rw [rawLevel_length, widthAt_iterCount lhs.length h1]),
      storedLevel_length_root node lhs h1]
    omega
  | d + 1, k, hk1, hkd => by
    have hklt : k < iterCount lhs.length := by omega
    have hk2 : 2 ≤ (rawLevel node lhs k).length := by
      rw [rawLevel_length]; exact widthAt_ge_two lhs.length k hklt
    rw [topFrom_unfold_level node lhs k hk2, List.length_append]
    have hrec := topFrom_length_levels node lhs h1 d (k + 1) (by omega)
      (by omega)
    have hls : levelStart node lhs (k + 1)
        = levelStart node lhs k + (storedLevel node lhs k).length := rfl
    omega

theorem levelStart_mono [Inhabited α] (node : α → α → Nat → α)
    (lhs : List α) : ∀ j k, j ≤ k →
      levelStart node lhs j ≤ levelStart node lhs k := by
  intro j k hjk
  induction k with
  | zero =>
    have hj : j = 0 := by omega
    rw [hj]
  | succ k ih =>
    rcases Nat.lt_or_ge j (k + 1) with hlt | hge
    · have h1 := ih (by omega)
      have hstep : levelStart node lhs (k + 1)
          = levelStart node lhs k + (storedLevel node lhs k).length := rfl
      omega
    · have hj : j = k + 1 := by omega
      rw [hj]

/-- Total node count of the built tree. -/
theorem treeNodes_length [Inhabited α] (node : α → α → Nat → α)
    (lhs : List α) (h2 : 2 ≤ lhs.length) :
    (treeNodes node lhs).length
      = levelStart node lhs (iterCount lhs.length) + 1 := by
  have hIC := iterCount_pos lhs.length h2
  have hlev := topFrom_length_levels node lhs (by omega)
    (iterCount lhs.length - 1) 1 le_rfl (by omega)
  have hls1 : levelStart node lhs 1
      = levelStart node lhs 0 + (storedLevel node lhs 0).length := rfl
  have hls0 : levelStart node lhs 0 = 0 := rfl
  rw [treeNodes, List.length_append]
  rw [storedLevel_zero node lhs h2] at hls1
  omega

/-- `build` for an arbitrary (propositionally equal) leaf-count argument. -/
theorem build_eq_of [Inhabited α] (node : α → α → Nat → α) (lhs : List α)
    (n ht : Nat) (hn : n = lhs.length) (h2 : 2 ≤ n) :
    build node lhs [] n ht
      = { leaves := padE lhs,
          topHalf := topFrom node 1 (rawLevel node lhs 1),
          leafs := n, height := ht,
          root := (topFrom node 1 (rawLevel node lhs 1)).getD
            ((topFrom node 1 (rawLevel node lhs 1)).length - 1) default } := by
  subst hn
  exact build_eq node lhs h2 ht

/-- Closed form of `from_iter`: leaves store, `top_half` store and root of
the built tree. -/
theorem fromIter_eq [Inhabited α] (node : α → α → Nat → α) (leafH : α → α)
    (items : List α) (h2 : 2 ≤ items.length) :
    fromIter node leafH items
      = { leaves := padE (items.map leafH),
          topHalf := topFrom node 1 (rawLevel node (items.map leafH) 1),
          leafs := items.length,
          height := log2Pow2 (2 * nextPow2 items.length),
          root := (topFrom node 1 (rawLevel node (items.map leafH) 1)).getD
            ((topFrom node 1 (rawLevel node (items.map leafH) 1)).length - 1)
            default } := by
  unfold fromIter
  exact build_eq_of node (items.map leafH) items.length _
    (List.length_map _ _).symm h2

/-- `MerkleTree::read_at` on a built tree is indexing of the unified node
array. -/
theorem treeReadAt_nodes [Inhabited α] (node : α → α → Nat → α)
    (lhs : List α) (t : MerkleTree α) (hl : t.leaves = padE lhs)
    (hth : t.topHalf = topFrom node 1 (rawLevel node lhs 1)) (p : Nat) :
    treeReadAt t p = (treeNodes node lhs).getD p default := by
  rw [treeReadAt, hl, hth, treeNodes]
  split
  · rw [getD_append_left _ _ p (by assumption)]
  · rw [getD_append_right _ _ p (by omega)]

/-- Intra-level index of the proof path at level `k` stays inside the raw
level. -/
theorem shiftRight_lt_widthAt (n i : Nat) (hi : i < n) :
    ∀ k, i >>> k < widthAt n k := by
  intro k
  induction k with
  | zero => simpa using hi
  | succ k ih =>
    rw [Nat.shiftRight_succ]
    show (i >>> k) / 2 < (widthAt n k + widthAt n k % 2) / 2
    omega

/-- The stored sibling index of the proof-path node at intra-level index
`j`: `j + 1` when `j` is a left child, `j - 1` when it is a right child. -/
def sibIdx (j : Nat) : Nat := if j % 2 = 0 then j + 1 else j - 1

/-- The `gen_proof` loop on a built tree walks exactly the levels
`k, …, iterCount - 1`, pushing the stored sibling and the left/right bit of
each level. -/
theorem genProofLoop_spec [Inhabited α] (node : α → α → Nat → α)
    (lhs : List α) (h2 : 2 ≤ lhs.length) (i : Nat) (hi : i < lhs.length) :
    ∀ d k fuel w, k + d = iterCount lhs.length → d ≤ fuel →
      (d ≠ 0 → w = (storedLevel node lhs k).length) →
      genProofLoop (fun p => (treeNodes node lhs).getD p default)
          (levelStart node lhs (iterCount lhs.length) + 1) fuel
          (levelStart node lhs k) (i >>> k) w
        = ((List.range' k d).map (fun l =>
              (storedLevel node lhs l).getD (sibIdx (i >>> l)) default),
           (List.range' k d).map (fun l => (i >>> l) % 2 == 0))
  | 0, k, fuel, w, hkd, _, _ => by
    have hk : k = iterCount lhs.length := by omega
    subst hk
    match fuel with
    | 0 => rfl
    | f + 1 =>
      rw [genProofLoop, if_neg (by omega)]
      rfl
  | d + 1, k, fuel, w, hkd, hfuel, hw => by
    have hklt : k < iterCount lhs.length := by omega
    have hwval : w = (storedLevel node lhs k).length := hw (by omega)
    obtain ⟨f, rfl⟩ : ∃ f, fuel = f + 1 := ⟨fuel - 1, by omega⟩
    have hwk2 := widthAt_ge_two lhs.length k hklt
    have hSLk := storedLevel_length node lhs k hklt
    have hstep : levelStart node lhs (k + 1)
        = levelStart node lhs k + (storedLevel node lhs k).length := rfl
    have hmono := levelStart_mono node lhs (k + 1) (iterCount lhs.length)
      (by omega)
    have hcond : levelStart node lhs k + 1
        < levelStart node lhs (iterCount lhs.length) + 1 := by omega
    rw [genProofLoop, if_pos hcond]
    have hall : ∀ j, 1 ≤ j → j < k → 2 ≤ (rawLevel node lhs j).length := by
      intro j _ hj
      rw [rawLevel_length]
      exact widthAt_ge_two lhs.length j (by omega)
    have hj := shiftRight_lt_widthAt lhs.length i hi k
    have hsib : ∀ j, j < widthAt lhs.length k →
        (if j % 2 = 0 then
            (treeNodes node lhs).getD (levelStart node lhs k + j + 1) default
          else
            (treeNodes node lhs).getD (levelStart node lhs k + j - 1) default)
          = (storedLevel node lhs k).getD (sibIdx j) default := by
      intro j hjw
      rw [sibIdx]
      by_cases hpar : j % 2 = 0
      · rw [if_pos hpar, if_pos hpar,
          show levelStart node lhs k + j + 1
            = levelStart node lhs k + (j + 1) by omega]
        exact treeNodes_getD node lhs h2 k _ hall (by omega)
      · rw [if_neg hpar, if_neg hpar,
          show levelStart node lhs k + j - 1
            = levelStart node lhs k + (j - 1) by omega]
        exact treeNodes_getD node lhs h2 k _ hall (by omega)
    have hnextw : d ≠ 0 →
        (if (w >>> 1) % 2 = 1 then w >>> 1 + 1 else w >>> 1)
          = (storedLevel node lhs (k + 1)).length := by
      intro hd
      have hklt1 : k + 1 < iterCount lhs.length := by omega
      have hSLk1 := storedLevel_length node lhs (k + 1) hklt1
      have hw1 : w >>> 1 = widthAt lhs.length (k + 1) := by
        rw [Nat.shiftRight_one, hwval, hSLk]
        show (widthAt lhs.length k + widthAt lhs.length k % 2) / 2 = _
        rfl
      rw [hw1, hSLk1]
      split <;> omega
    have hrec := genProofLoop_spec node lhs h2 i hi d (k + 1) f
      (if (w >>> 1) % 2 = 1 then w >>> 1 + 1 else w >>> 1)
      (by omega) (by omega) hnextw
    rw [hstep, ← hwval] at hrec
    have hjnext : i >>> (k + 1) = (i >>> k) >>> 1 := by
      rw [Nat.shiftRight_succ, Nat.shiftRight_one]
    rw [hjnext] at hrec
    simp only [hrec, hsib (i >>> k) hj, List.range'_succ, List.map_cons]
termination_by d _ _ _ _ _ _ => d
decreasing_by omega

/-! ## Correctness of the `next_pow2` bit cascade and of the height
computed by the callers of `build` -/

/-- One or-shift step doubles the window of smeared-down bits. -/
theorem smear_step (m x w : Nat)
    (hx : ∀ t, x.testBit t = true ↔ ∃ j, j < w ∧ m.testBit (t + j) = true) :
    ∀ t, (x ||| x >>> w).testBit t = true
      ↔ ∃ j, j < 2 * w ∧ m.testBit (t + j) = true := by
  intro t
  rw [Nat.testBit_lor, Bool.or_eq_true, Nat.testBit_shiftRight, hx, hx]
  constructor
  · rintro (⟨j, hj, hbit⟩ | ⟨j, hj, hbit⟩)
    · exact ⟨j, by omega, hbit⟩
    · refine ⟨w + j, by omega, ?_⟩
      rw [show t + (w + j) = w + t + j by omega]
      exact hbit
  · rintro ⟨j, hj, hbit⟩
    rcases Nat.lt_or_ge j w with hjw | hjw
    · exact Or.inl ⟨j, hjw, hbit⟩
    · refine Or.inr ⟨j - w, by omega, ?_⟩
      rw [show w + t + (j - w) = t + j by omega]
      exact hbit

theorem lt_size_of_testBit (m j : Nat) (h : m.testBit j = true) :
    j < m.size := by
  rw [Nat.lt_size]
  by_contra hlt
  push_neg at hlt
  have hfalse : m.testBit j = false :=
    Nat.testBit_lt_two_pow (by omega)
  rw [h] at hfalse
  exact Bool.noConfusion hfalse

theorem testBit_size_self (m : Nat) (h1 : 1 ≤ m) :
    m.testBit (m.size - 1) = true := by
  have hlt := Nat.lt_size_self m
  have hs1 : 1 ≤ m.size := by
    by_contra hc
    have h0 : m.size ≤ 0 := by omega
    have := Nat.size_le.mp h0
    omega
  have hge : 2 ^ (m.size - 1) ≤ m := Nat.lt_size.mp (by omega)
  rw [Nat.testBit_to_div_mod]
  have h2p : 2 ^ m.size = 2 ^ (m.size - 1) * 2 := by
    rw [← pow_succ]
    congr 1
    omega
  have hdiv : m / 2 ^ (m.size - 1) = 1 :=
    Nat.div_eq_of_lt_le (by omega) (by omega)
  rw [hdiv]
  rfl

/-- The or-shift cascade of `next_pow2` computes the least power of two at or
above `n` (as `2 ^ size (n - 1)`), for every `usize` value whose next power
of two is representable. -/
theorem nextPow2_eq_two_pow_size (n : Nat) (h1 : 1 ≤ n) (h63 : n ≤ 2 ^ 63) :
    nextPow2 n = 2 ^ (n - 1).size := by
  have hm63 : (n - 1).size ≤ 63 := Nat.size_le.mpr (by omega)
  have h0 : ∀ t, (n - 1).testBit t = true
      ↔ ∃ j, j < 1 ∧ (n - 1).testBit (t + j) = true := by
    intro t
    constructor
    · intro hb
      exact ⟨0, by omega, by rw [Nat.add_zero]; exact hb⟩
    · rintro ⟨j, hj, hbit⟩
      have hj0 : j = 0 := by omega
      rw [hj0, Nat.add_zero] at hbit
      exact hbit
  have h1s := smear_step (n - 1) (n - 1) 1 h0
  have h2s := smear_step (n - 1) _ 2 h1s
  have h4s := smear_step (n - 1) _ 4 h2s
  have h8s := smear_step (n - 1) _ 8 h4s
  have h16s := smear_step (n - 1) _ 16 h8s
  have h32s := smear_step (n - 1) _ 32 h16s
  obtain ⟨X, hXdef, hX⟩ : ∃ X, nextPow2 n = X + 1
      ∧ ∀ t, X.testBit t = true
          ↔ ∃ j, j < 2 * 32 ∧ (n - 1).testBit (t + j) = true :=
    ⟨_, rfl, h32s⟩
  have hXval : X = 2 ^ (n - 1).size - 1 := by
    apply Nat.eq_of_testBit_eq
    intro t
    have hXt : X.testBit t = true ↔ t < (n - 1).size := by
      rw [hX t]
      constructor
      · rintro ⟨j, hj, hbit⟩
        have := lt_size_of_testBit (n - 1) (t + j) hbit
        omega
      · intro hts
        refine ⟨(n - 1).size - 1 - t, by omega, ?_⟩
        rw [show t + ((n - 1).size - 1 - t) = (n - 1).size - 1 by omega]
        apply testBit_size_self
        by_contra hm0
        have hz : n - 1 = 0 := by omega
        rw [hz, Nat.size_zero] at hts
        omega
    rw [Nat.testBit_two_pow_sub_one]
    rcases Decidable.em (t < (n - 1).size) with hts | hts
    · rw [decide_eq_true hts]
      exact hXt.mpr hts
    · rw [decide_eq_false hts]
      cases hb : X.testBit t
      · rfl
      · exact absurd (hXt.mp hb) hts
  have hpos : 0 < 2 ^ (n - 1).size := Nat.two_pow_pos _
  rw [hXdef, hXval]
  omega

theorem size_succ_div2 (x : Nat) (h1 : 1 ≤ x) :
    (x / 2).size + 1 = x.size := by
  have hlt := Nat.lt_size_self x
  have hs1 : 1 ≤ x.size := by
    by_contra hc
    have h0 : x.size ≤ 0 := by omega
    have := Nat.size_le.mp h0
    omega
  by_cases hsmall : x.size ≤ 1
  · have hx1 : x = 1 := by
      have := Nat.size_le.mp (show x.size ≤ 1 from hsmall)
      omega
    rw [hx1]
    simp [Nat.size_zero, Nat.size_one]
  · have hub : (x / 2).size ≤ x.size - 1 := by
      apply Nat.size_le.mpr
      have h2p : 2 ^ x.size = 2 ^ (x.size - 1) * 2 := by
        rw [← pow_succ]
        congr 1
        omega
      have hpos : 0 < 2 ^ (x.size - 1) := Nat.pos_pow_of_pos _ (by omega)
      omega
    have hlb : x.size - 1 ≤ (x / 2).size := by
      by_contra hcon
      push_neg at hcon
      have hx2lt := Nat.lt_size_self (x / 2)
      have hmono : 2 ^ (x / 2).size ≤ 2 ^ (x.size - 2) :=
        Nat.pow_le_pow_right (by omega) (by omega)
      have h2p : 2 ^ (x.size - 1) = 2 ^ (x.size - 2) * 2 := by
        rw [← pow_succ]
        congr 1
        omega
      have hxlt : x < 2 ^ (x.size - 1) := by omega
      have := Nat.size_le.mpr hxlt
      omega
    omega

theorem size_eq_iterCount : ∀ n, 1 ≤ n → (n - 1).size = iterCount n
  | n, h1 => by
    by_cases hle : n ≤ 1
    · have hn1 : n = 1 := by omega
      rw [hn1, iterCount]
      simp [Nat.size_zero]
    · have hrec := size_eq_iterCount ((n + n % 2) / 2) (by omega)
      rw [iterCount, if_neg hle, ← hrec,
        ← size_succ_div2 (n - 1) (by omega)]
      congr 2
      omega
termination_by n _ => n
decreasing_by omega

theorem trailingZeros_two_pow : ∀ k, trailingZeros (2 ^ k) = k
  | 0 => by rw [trailingZeros]; norm_num
  | k + 1 => by
    have hpos : 0 < 2 ^ (k + 1) := Nat.pos_pow_of_pos _ (by omega)
    have hmod : 2 ^ (k + 1) % 2 = 0 := by
      rw [pow_succ]
      omega
    have hdiv : 2 ^ (k + 1) / 2 = 2 ^ k := by
      rw [pow_succ]
      omega
    rw [trailingZeros, if_neg (by omega), if_neg (by omega), hdiv,
      trailingZeros_two_pow k]

/-- The `height` every caller passes to `build`
(`log2_pow2(2 * next_pow2(leafs))`) equals the number of loop iterations
plus one: the `assert_eq!(height, level + 1)` in `build` always holds. -/
theorem height_eq_iterCount (n : Nat) (h2 : 2 ≤ n) (h63 : n ≤ 2 ^ 63) :
    log2Pow2 (2 * nextPow2 n) = iterCount n + 1 := by
  rw [nextPow2_eq_two_pow_size n (by omega) h63, size_eq_iterCount n (by omega)]
  have hp : 2 * 2 ^ iterCount n = 2 ^ (iterCount n + 1) := by
    rw [pow_succ]
    ring
  rw [hp, log2Pow2, trailingZeros_two_pow]

theorem levelStart_ge [Inhabited α] (node : α → α → Nat → α)
    (lhs : List α) : ∀ k, k ≤ iterCount lhs.length →
      k ≤ levelStart node lhs k := by
  intro k
  induction k with
  | zero => intro _; exact Nat.zero_le _
  | succ k ih =>
    intro hk
    have h1 := ih (by omega)
    have h2 := widthAt_ge_two lhs.length k (by omega)
    have hSL := storedLevel_length node lhs k (by omega)
    have hstep : levelStart node lhs (k + 1)
        = levelStart node lhs k + (storedLevel node lhs k).length := rfl
    omega

/-- The height every built tree records equals `iterCount + 1`. -/
theorem fromIter_height [Inhabited α] (node : α → α → Nat → α)
    (leafH : α → α) (items : List α) (h2 : 2 ≤ items.length)
    (h63 : items.length ≤ 2 ^ 63) :
    (fromIter node leafH items).height = iterCount items.length + 1 := by
  rw [fromIter_eq node leafH items h2]
  exact height_eq_iterCount items.length h2 h63

/-- Full decomposition of `gen_proof` on a tree built by `from_iter`. -/
theorem genProof_decomp [Inhabited α] (node : α → α → Nat → α)
    (leafH : α → α) (items : List α) (i : Nat) (h2 : 2 ≤ items.length)
    (hi : i < items.length) :
    genProof (fromIter node leafH items) i
      = (treeReadAt (fromIter node leafH items) i
            :: ((List.range' 0 (iterCount items.length)).map (fun l =>
                (storedLevel node (items.map leafH) l).getD
                  (sibIdx (i >>> l)) default))
            ++ [rootFn (fromIter node leafH items)],
         (List.range' 0 (iterCount items.length)).map (fun l =>
            (i >>> l) % 2 == 0)) := by
  have hlen : (items.map leafH).length = items.length := List.length_map _ _
  have hIC : 1 ≤ iterCount items.length := iterCount_pos _ h2
  have hfe := fromIter_eq node leafH items h2
  have hl : (fromIter node leafH items).leaves = padE (items.map leafH) := by
    rw [hfe]
  have hth : (fromIter node leafH items).topHalf
      = topFrom node 1 (rawLevel node (items.map leafH) 1) := by
    rw [hfe]
  have hleafs : (fromIter node leafH items).leafs = items.length := by
    rw [hfe]
  have hread : treeReadAt (fromIter node leafH items)
      = fun p => (treeNodes node (items.map leafH)).getD p default :=
    funext (treeReadAt_nodes node (items.map leafH) _ hl hth)
  have htlen : treeLen (fromIter node leafH items)
      = levelStart node (items.map leafH)
          (iterCount (items.map leafH).length) + 1 := by
    rw [treeLen, hl, hth, ← List.length_append, ← treeNodes]
    exact treeNodes_length node (items.map leafH) (by omega)
  have hw0 : iterCount (items.map leafH).length ≠ 0 →
      (if (fromIter node leafH items).leafs % 2 = 1 then
          (fromIter node leafH items).leafs + 1
        else (fromIter node leafH items).leafs)
      = (storedLevel node (items.map leafH) 0).length := by
    intro _
    rw [hleafs, storedLevel_length node (items.map leafH) 0 (by omega)]
    have hw00 : widthAt (items.map leafH).length 0 = items.length := by
      show (items.map leafH).length = items.length
      exact hlen
    rw [hw00]
    split <;> omega
  have hfuel : iterCount (items.map leafH).length - 0
      ≤ treeLen (fromIter node leafH items) := by
    rw [htlen]
    have := levelStart_ge node (items.map leafH)
      (iterCount (items.map leafH).length) le_rfl
    omega
  have hspec := genProofLoop_spec node (items.map leafH) (by omega) i
    (by omega) (iterCount (items.map leafH).length) 0
    (treeLen (fromIter node leafH items))
    (if (fromIter node leafH items).leafs % 2 = 1 then
        (fromIter node leafH items).leafs + 1
      else (fromIter node leafH items).leafs)
    (by omega) (by omega) hw0
  simp only [genProof, hread, htlen]
  rw [show levelStart node (items.map leafH) 0 = 0 from rfl,
    Nat.shiftRight_zero, htlen] at hspec
  rw [hspec, hlen]

theorem getD_map_self [Inhabited α] (f : α → α) (l : List α) (i : Nat)
    (h : i < l.length) :
    (l.map f).getD i default = f (l.getD i default) := by
  rw [List.getD_eq_getElem _ _ (by simpa using h),
    List.getD_eq_getElem _ _ h, List.getElem_map]

theorem padE_getD [Inhabited α] (xs : List α) (i : Nat) (h : i < xs.length) :
    (padE xs).getD i default = xs.getD i default := by
  unfold padE
  split
  · exact getD_append_left _ _ i h
  · rfl

theorem getD_map_range' {β : Type} [Inhabited β] (f : Nat → β)
    (s len k : Nat) (h : k < len) :
    ((List.range' s len).map f).getD k default = f (s + k) := by
  have hk : k < ((List.range' s len).map f).length := by
    simpa [List.length_map, List.length_range'] using h
  rw [List.getD_eq_getElem _ _ hk, List.getElem_map]
  congr 1
  simp [List.getElem_range']

/-- The leaf read off a built tree at a valid index is the hashed input. -/
theorem treeReadAt_leaf [Inhabited α] (node : α → α → Nat → α)
    (leafH : α → α) (items : List α) (i : Nat) (h2 : 2 ≤ items.length)
    (hi : i < items.length) :
    treeReadAt (fromIter node leafH items) i
      = leafH (items.getD i default) := by
  have hlen : (items.map leafH).length = items.length := List.length_map _ _
  have hfe := fromIter_eq node leafH items h2
  have hl : (fromIter node leafH items).leaves = padE (items.map leafH) := by
    rw [hfe]
  have hth : (fromIter node leafH items).topHalf
      = topFrom node 1 (rawLevel node (items.map leafH) 1) := by
    rw [hfe]
  rw [treeReadAt_nodes node (items.map leafH) _ hl hth, treeNodes,
    getD_append_left _ _ i (by rw [length_padE]; omega),
    padE_getD _ i (by omega), getD_map_self leafH items i hi]

/-- C1: for every Merkle tree built from `n ≥ 2` leaves and every leaf index
`i < n`, `gen_proof(i)` returns a lemma of exactly `height + 1` elements
whose position 0 is the leaf at index `i`, whose positions `1 … height - 1`
are the stored sibling digests from the bottom level upward (the sibling of
the path node at level `k`), and whose last position is the root; and a path
of exactly `height - 1` booleans whose position `k` is `true` exactly when
the path node at level `k` is a left child. -/
theorem gen_proof_spec [Inhabited α] (node : α → α → Nat → α)
    (leafH : α → α) (items : List α) (i : Nat) (h2 : 2 ≤ items.length)
    (h63 : items.length ≤ 2 ^ 63) (hi : i < items.length) :
    ((genProof (fromIter node leafH items) i).1.length
        = (fromIter node leafH items).height + 1)
    ∧ ((genProof (fromIter node leafH items) i).2.length
        = (fromIter node leafH items).height - 1)
    ∧ ((genProof (fromIter node leafH items) i).1.getD 0 default
        = leafH (items.getD i default))
    ∧ (∀ k, k < (fromIter node leafH items).height - 1 →
        (genProof (fromIter node leafH items) i).1.getD (k + 1) default
          = (storedLevel node (items.map leafH) k).getD
              (sibIdx (i >>> k)) default
        ∧ (genProof (fromIter node leafH items) i).2.getD k false
          = ((i >>> k) % 2 == 0))
    ∧ ((genProof (fromIter node leafH items) i).1.getD
          ((fromIter node leafH items).height) default
        = rootFn (fromIter node leafH items)) := by
  have hh := fromIter_height node leafH items h2 h63
  have hd := genProof_decomp node leafH items i h2 hi
  have hlenmap : ∀ g : Nat → α,
      ((List.range' 0 (iterCount items.length)).map g).length
        = iterCount items.length := by
    intro g
    rw [List.length_map, List.length_range']
  refine ⟨?_, ?_, ?_, ?_, ?_⟩
  · simp only [hd, hh, List.cons_append, List.length_cons,
      List.length_append, List.length_map, List.length_range',
      List.length_nil]
  · simp only [hd, hh, List.length_map, List.length_range']
    omega
  · simp only [hd, List.cons_append, List.getD_cons_zero]
    exact treeReadAt_leaf node leafH items i h2 hi
  · intro k hk
    rw [hh] at hk
    simp only [Nat.add_sub_cancel] at hk
    constructor
    · simp only [hd, List.cons_append]
      rw [List.getD_cons_succ,
        getD_append_left _ _ k (by rw [hlenmap]; omega),
        getD_map_range' _ 0 _ k (by omega), Nat.zero_add]
    · simp only [hd]
      show ((List.range' 0 (iterCount items.length)).map
          (fun l => (i >>> l) % 2 == 0)).getD k default = _
      rw [getD_map_range' _ 0 _ k (by omega), Nat.zero_add]
  · simp only [hd, hh, List.cons_append]
    rw [List.getD_cons_succ,
      getD_append_right _ _ (iterCount items.length) (by rw [hlenmap])]
    rw [hlenmap, Nat.sub_self]
    rfl

/-- Concrete test algebra for closed witnesses. -/
def natLeaf (x : Nat) : Nat := 2 * x + 1

/-- Concrete `node` hash for closed witnesses: injective enough to tell
siblings and levels apart. -/
def natNode (l r lev : Nat) : Nat := 100 * l + 10 * r + lev + 3

theorem gen_proof_spec_witness :
    ((genProof (fromIter natNode natLeaf [5, 6, 7]) 2).1.length
        = (fromIter natNode natLeaf [5, 6, 7]).height + 1)
    ∧ ((genProof (fromIter natNode natLeaf [5, 6, 7]) 2).2.length
        = (fromIter natNode natLeaf [5, 6, 7]).height - 1)
    ∧ ((genProof (fromIter natNode natLeaf [5, 6, 7]) 2).1.getD 0 default
        = natLeaf (([5, 6, 7] : List Nat).getD 2 default))
    ∧ (∀ k, k < (fromIter natNode natLeaf [5, 6, 7]).height - 1 →
        (genProof (fromIter natNode natLeaf [5, 6, 7]) 2).1.getD (k + 1)
            default
          = (storedLevel natNode ([5, 6, 7].map natLeaf) k).getD
              (sibIdx (2 >>> k)) default
        ∧ (genProof (fromIter natNode natLeaf [5, 6, 7]) 2).2.getD k false
          = ((2 >>> k) % 2 == 0))
    ∧ ((genProof (fromIter natNode natLeaf [5, 6, 7]) 2).1.getD
          ((fromIter natNode natLeaf [5, 6, 7]).height) default
        = rootFn (fromIter natNode natLeaf [5, 6, 7])) :=
  gen_proof_spec natNode natLeaf [5, 6, 7] 2 (by decide) (by decide)
    (by decide)

theorem hashPairs_getD [Inhabited α] (node : α → α → Nat → α) (lev : Nat) :
    ∀ (xs : List α) (m : Nat), 2 * m + 1 < xs.length →
      (hashPairs node lev xs).getD m default
        = node (xs.getD (2 * m) default) (xs.getD (2 * m + 1) default) lev
  | [], _, h => by simp at h
  | [_], _, h => by simp at h
  | x :: y :: rest, 0, _ => by norm_num [hashPairs]
  | x :: y :: rest, m + 1, h => by
    have h' : 2 * m + 1 < rest.length := by
      simp only [List.length_cons] at h
      omega
    have e1 : 2 * (m + 1) = 2 * m + 1 + 1 := by ring
    have e2 : 2 * (m + 1) + 1 = 2 * m + 1 + 1 + 1 := by ring
    simp only [hashPairs, e1, e2, List.getD_cons_succ]
    exact hashPairs_getD node lev rest m h'

/-- C2: in every built tree, the stored value of a non-leaf node at level
`k > 0` and intra-level index `m` equals the `node` hash of its two children
(the nodes at level `k - 1`, indexes `2m` and `2m + 1`), with level argument
`k - 1`, the child level. -/
theorem build_node_hash [Inhabited α] (node : α → α → Nat → α)
    (leafH : α → α) (items : List α) (k m : Nat) (h2 : 2 ≤ items.length)
    (h63 : items.length ≤ 2 ^ 63) (hk1 : 1 ≤ k)
    (hk2 : k < (fromIter node leafH items).height)
    (hm : m < (rawLevel node (items.map leafH) k).length) :
    treeReadAt (fromIter node leafH items)
        (levelStart node (items.map leafH) k + m)
      = node
          (treeReadAt (fromIter node leafH items)
            (levelStart node (items.map leafH) (k - 1) + 2 * m))
          (treeReadAt (fromIter node leafH items)
            (levelStart node (items.map leafH) (k - 1) + (2 * m + 1)))
          (k - 1) := by
  obtain ⟨j, rfl⟩ : ∃ j, k = j + 1 := ⟨k - 1, by omega⟩
  simp only [Nat.add_sub_cancel]
  have hlen : (items.map leafH).length = items.length := List.length_map _ _
  have hh := fromIter_height node leafH items h2 h63
  have hkIC : j + 1 ≤ iterCount items.length := by omega
  have hjIC : j < iterCount (items.map leafH).length := by rw [hlen]; omega
  have hfe := fromIter_eq node leafH items h2
  have hl : (fromIter node leafH items).leaves = padE (items.map leafH) := by
    rw [hfe]
  have hth : (fromIter node leafH items).topHalf
      = topFrom node 1 (rawLevel node (items.map leafH) 1) := by
    rw [hfe]
  have hread := treeReadAt_nodes node (items.map leafH) _ hl hth
  have hall : ∀ jj, 1 ≤ jj → jj < j + 1 →
      2 ≤ (rawLevel node (items.map leafH) jj).length := by
    intro jj _ hjj
    rw [rawLevel_length]
    exact widthAt_ge_two _ jj (by rw [hlen] at hjIC ⊢; omega)
  have hallj : ∀ jj, 1 ≤ jj → jj < j →
      2 ≤ (rawLevel node (items.map leafH) jj).length := by
    intro jj h1 hjj
    exact hall jj h1 (by omega)
  have hrawj2 : 2 ≤ (rawLevel node (items.map leafH) j).length := by
    rw [rawLevel_length]
    exact widthAt_ge_two _ j hjIC
  have hSLj : storedLevel node (items.map leafH) j
      = padE (rawLevel node (items.map leafH) j) := by
    rw [storedLevel, if_neg (by omega)]
  have hpadlen : (padE (rawLevel node (items.map leafH) j)).length
      = (rawLevel node (items.map leafH) j).length
        + (rawLevel node (items.map leafH) j).length % 2 :=
    length_padE _
  have hmbound : 2 * m + 1
      < (padE (rawLevel node (items.map leafH) j)).length := by
    have hlen1 : (rawLevel node (items.map leafH) (j + 1)).length
        = (padE (rawLevel node (items.map leafH) j)).length / 2 := by
      show (hashPairs node j (padE (rawLevel node (items.map leafH) j))).length = _
      exact length_hashPairs _ _ _
    rw [hlen1] at hm
    omega
  have hSLk_ge : (rawLevel node (items.map leafH) (j + 1)).length
      ≤ (storedLevel node (items.map leafH) (j + 1)).length := by
    rw [storedLevel]
    split
    · exact le_rfl
    · rw [length_padE]; omega
  have hSLk_getD : (storedLevel node (items.map leafH) (j + 1)).getD m default
      = (rawLevel node (items.map leafH) (j + 1)).getD m default := by
    rw [storedLevel]
    split
    · rfl
    · exact padE_getD _ m hm
  rw [hread, hread, hread,
    treeNodes_getD node (items.map leafH) (by omega) (j + 1) m hall
      (by omega),
    treeNodes_getD node (items.map leafH) (by omega) j (2 * m) hallj
      (by rw [hSLj]; omega),
    treeNodes_getD node (items.map leafH) (by omega) j (2 * m + 1) hallj
      (by rw [hSLj]; omega),
    hSLk_getD, hSLj]
  show (hashPairs node j (padE (rawLevel node (items.map leafH) j))).getD
      m default = _
  exact hashPairs_getD node j _ m hmbound

theorem build_node_hash_witness :
    treeReadAt (fromIter natNode natLeaf [5, 6, 7])
        (levelStart natNode ([5, 6, 7].map natLeaf) 1 + 1)
      = natNode
          (treeReadAt (fromIter natNode natLeaf [5, 6, 7])
            (levelStart natNode ([5, 6, 7].map natLeaf) 0 + 2 * 1))
          (treeReadAt (fromIter natNode natLeaf [5, 6, 7])
            (levelStart natNode ([5, 6, 7].map natLeaf) 0 + (2 * 1 + 1)))
          0 :=
  build_node_hash natNode natLeaf [5, 6, 7] 1 1 (by decide) (by decide)
    (by decide)
    (by rw [fromIter_height natNode natLeaf [5, 6, 7] (by decide) (by decide),
          iterCount]
        norm_num)
    (by decide)

/-- C3: after `build` the cached root equals the last element of the
`top_half` store — `top_half.read_at(top_half.len() - 1)` — and `root()`
returns the cached copy: it reads only the `root` field, never the stores
(the same value is returned whatever the stores hold), so it survives a
store offload. -/
theorem root_cached_spec [Inhabited α] (node : α → α → Nat → α)
    (leafH : α → α) (items : List α) (h2 : 2 ≤ items.length) :
    (rootFn (fromIter node leafH items)
        = (fromIter node leafH items).topHalf.getD
            ((fromIter node leafH items).topHalf.length - 1) default)
    ∧ (rootFn (fromIter node leafH items) = (fromIter node leafH items).root)
    ∧ (∀ l' th' : List α,
        rootFn { fromIter node leafH items with leaves := l', topHalf := th' }
          = rootFn (fromIter node leafH items)) := by
  rw [fromIter_eq node leafH items h2]
  exact ⟨rfl, rfl, fun _ _ => rfl⟩

theorem root_cached_spec_witness :
    (rootFn (fromIter natNode natLeaf [1, 2])
        = (fromIter natNode natLeaf [1, 2]).topHalf.getD
            ((fromIter natNode natLeaf [1, 2]).topHalf.length - 1) default)
    ∧ (rootFn (fromIter natNode natLeaf [1, 2])
        = (fromIter natNode natLeaf [1, 2]).root)
    ∧ (∀ l' th' : List Nat,
        rootFn { fromIter natNode natLeaf [1, 2] with
                  leaves := l', topHalf := th' }
          = rootFn (fromIter natNode natLeaf [1, 2])) :=
  root_cached_spec natNode natLeaf [1, 2] (by decide)

theorem topFrom_length_pow2 [Inhabited α] (node : α → α → Nat → α) :
    ∀ (kk : Nat) (cur : List α) (lev : Nat), cur.length = 2 ^ kk →
      (topFrom node lev cur).length = 2 ^ (kk + 1) - 1
  | 0, cur, lev, hc => by
    rw [topFrom, if_pos (by omega)]
    omega
  | kk + 1, cur, lev, hc => by
    have h2p : (2:Nat) ^ (kk + 1) = 2 ^ kk * 2 := pow_succ 2 kk
    have hpos : 0 < (2:Nat) ^ kk := Nat.two_pow_pos kk
    have h2 : 2 ≤ cur.length := by omega
    have heven : cur.length % 2 = 0 := by omega
    have hpE : padE cur = cur := padE_of_even cur heven
    rw [topFrom, if_neg (by omega), hpE, List.length_append]
    have hhp : (hashPairs node lev cur).length = 2 ^ kk := by
      rw [length_hashPairs, hc, h2p]
      omega
    rw [topFrom_length_pow2 node kk (hashPairs node lev cur) (lev + 1) hhp,
      hc]
    have h2q : (2:Nat) ^ (kk + 1 + 1) = 2 ^ (kk + 1) * 2 := pow_succ 2 (kk + 1)
    omega

/-- C5: for a tree whose leaf count is a power of two, `len()` — the sum
of the lengths of the leaves store and the `top_half` store — equals
`2 * leafs - 1`. -/
theorem len_pow2 [Inhabited α] (node : α → α → Nat → α) (leafH : α → α)
    (items : List α) (kk : Nat) (h2 : 2 ≤ items.length)
    (hpow : items.length = 2 ^ kk) :
    treeLen (fromIter node leafH items)
      = 2 * (fromIter node leafH items).leafs - 1 := by
  have hlen : (items.map leafH).length = items.length := List.length_map _ _
  have hkk1 : 1 ≤ kk := by
    by_contra hc
    have hk0 : kk = 0 := by omega
    rw [hk0] at hpow
    simp at hpow
    omega
  have h2p : (2:Nat) ^ kk = 2 ^ (kk - 1) * 2 := by
    rw [← pow_succ]
    congr 1
    omega
  have hpos : 0 < (2:Nat) ^ (kk - 1) := Nat.two_pow_pos _
  have heven : (items.map leafH).length % 2 = 0 := by
    rw [hlen, hpow]
    omega
  have hraw1 : (rawLevel node (items.map leafH) 1).length = 2 ^ (kk - 1) := by
    rw [rawLevel_length]
    show (widthAt (items.map leafH).length 0
        + widthAt (items.map leafH).length 0 % 2) / 2 = _
    show ((items.map leafH).length + (items.map leafH).length % 2) / 2 = _
    rw [hlen, hpow]
    omega
  rw [fromIter_eq node leafH items h2]
  show (padE (items.map leafH)).length
      + (topFrom node 1 (rawLevel node (items.map leafH) 1)).length
    = 2 * items.length - 1
  rw [length_padE, heven,
    topFrom_length_pow2 node (kk - 1) _ 1 hraw1, hlen, hpow]
  have hk1 : kk - 1 + 1 = kk := by omega
  rw [hk1]
  omega

theorem len_pow2_witness :
    treeLen (fromIter natNode natLeaf [1, 2, 3, 4])
      = 2 * (fromIter natNode natLeaf [1, 2, 3, 4]).leafs - 1 :=
  len_pow2 natNode natLeaf [1, 2, 3, 4] 2 (by decide) (by decide)

/-- C4: every level that enters the level loop with an odd width `w` has its
last node read and pushed again onto the store holding that level: its stored
form (the slice of the node array at the level's start, living in the leaves
store for level 0 and in `top_half` otherwise) is the computed level followed
by a copy of its last node, and the level is processed at width `w + 1`, the
next level receiving `(w + 1) / 2` nodes. -/
theorem odd_width_duplication [Inhabited α] (node : α → α → Nat → α)
    (leafH : α → α) (items : List α) (k : Nat) (h2 : 2 ≤ items.length)
    (h63 : items.length ≤ 2 ^ 63)
    (hk : k < (fromIter node leafH items).height - 1)
    (hodd : (rawLevel node (items.map leafH) k).length % 2 = 1) :
    (storedLevel node (items.map leafH) k
        = rawLevel node (items.map leafH) k
          ++ [(rawLevel node (items.map leafH) k).getD
                ((rawLevel node (items.map leafH) k).length - 1) default])
    ∧ (((treeNodes node (items.map leafH)).drop
          (levelStart node (items.map leafH) k)).take
            ((rawLevel node (items.map leafH) k).length + 1)
        = storedLevel node (items.map leafH) k)
    ∧ ((rawLevel node (items.map leafH) (k + 1)).length
        = ((rawLevel node (items.map leafH) k).length + 1) / 2)
    ∧ (treeNodes node (items.map leafH)
        = (fromIter node leafH items).leaves
            ++ (fromIter node leafH items).topHalf) := by
  have hlen : (items.map leafH).length = items.length := List.length_map _ _
  have hh := fromIter_height node leafH items h2 h63
  have hkIC : k < iterCount (items.map leafH).length := by
    rw [hlen]
    omega
  have hraw2 : 2 ≤ (rawLevel node (items.map leafH) k).length := by
    rw [rawLevel_length]
    exact widthAt_ge_two _ k hkIC
  have hSL : storedLevel node (items.map leafH) k
      = padE (rawLevel node (items.map leafH) k) := by
    rw [storedLevel, if_neg (by omega)]
  have hSLform : storedLevel node (items.map leafH) k
      = rawLevel node (items.map leafH) k
        ++ [(rawLevel node (items.map leafH) k).getD
              ((rawLevel node (items.map leafH) k).length - 1) default] := by
    rw [hSL, padE, if_pos hodd]
  have hSLlen : (storedLevel node (items.map leafH) k).length
      = (rawLevel node (items.map leafH) k).length + 1 := by
    rw [hSLform, List.length_append]
    rfl
  refine ⟨hSLform, ?_, ?_, ?_⟩
  · rw [← hSLlen]
    rcases Nat.eq_zero_or_pos k with rfl | hkpos
    · rw [treeNodes]
      show ((padE (items.map leafH)
          ++ topFrom node 1 (rawLevel node (items.map leafH) 1)).drop 0).take
            (storedLevel node (items.map leafH) 0).length = _
      rw [List.drop_zero, storedLevel_zero node _ (by omega)]
      exact List.take_left _ _
    · rw [treeNodes_drop node (items.map leafH) (by omega) k hkpos
        (fun j _ hj => by
          rw [rawLevel_length]
          exact widthAt_ge_two _ j (by omega)),
        topFrom_unfold_level node (items.map leafH) k (by omega)]
      exact List.take_left _ _
  · show (hashPairs node k (padE (rawLevel node (items.map leafH) k))).length
        = _
    rw [length_hashPairs, length_padE, hodd]
  · rw [fromIter_eq node leafH items h2]
    rfl

theorem odd_width_duplication_witness :
    (storedLevel natNode ([5, 6, 7].map natLeaf) 0
        = rawLevel natNode ([5, 6, 7].map natLeaf) 0
          ++ [(rawLevel natNode ([5, 6, 7].map natLeaf) 0).getD
                ((rawLevel natNode ([5, 6, 7].map natLeaf) 0).length - 1)
                default])
    ∧ (((treeNodes natNode ([5, 6, 7].map natLeaf)).drop
          (levelStart natNode ([5, 6, 7].map natLeaf) 0)).take
            ((rawLevel natNode ([5, 6, 7].map natLeaf) 0).length + 1)
        = storedLevel natNode ([5, 6, 7].map natLeaf) 0)
    ∧ ((rawLevel natNode ([5, 6, 7].map natLeaf) 1).length
        = ((rawLevel natNode ([5, 6, 7].map natLeaf) 0).length + 1) / 2)
    ∧ (treeNodes natNode ([5, 6, 7].map natLeaf)
        = (fromIter natNode natLeaf [5, 6, 7]).leaves
            ++ (fromIter natNode natLeaf [5, 6, 7]).topHalf) :=
  odd_width_duplication natNode natLeaf [5, 6, 7] 0 (by decide) (by decide)
    (by rw [fromIter_height natNode natLeaf [5, 6, 7] (by decide) (by decide),
          iterCount]
        norm_num)
    (by decide)

/-! ## Disk-backed store model (`DiskMmapStore`), offload and reload

`DiskMmapStore` holds a memory mapping (`store : Option<MmapMut>`) of a
backing file.  `MmapMut::map_mut` gives a shared view of the file, so the
mapping and the file are modelled as one `file` contents list (element
granularity); `mapped` records whether the `Option` is `Some`.  `try_offload`
drops the mapping when the store was created with `new_with_path`
(`path` non-empty); `reload_store` re-creates the mapping from the same path
before every read or write. -/

structure DiskMmapStore (α : Type) where
  file : List α
  mapped : Bool
  len : Nat
  storeSize : Nat
  pathNonEmpty : Bool
  deriving Repr, DecidableEq

/-- `DiskMmapStore::reload_store`: remap the backing file if the mapping was
dropped; the contents are those of the file. -/
def reloadStore (s : DiskMmapStore α) : DiskMmapStore α :=
  if s.mapped then s else { s with mapped := true }

/-- `DiskMmapStore::try_offload`: refuse for path-less (temporary-file)
stores, otherwise drop the mapping and report success. -/
def tryOffload (s : DiskMmapStore α) : Bool × DiskMmapStore α :=
  if s.pathNonEmpty = false then (false, s)
  else (true, { s with mapped := false })

/-- `DiskMmapStore::read_at` (bounds are asserted by the caller side:
`i < len`): reload the mapping, then read the element. -/
def diskReadAt [Inhabited α] (s : DiskMmapStore α) (i : Nat) :
    α × DiskMmapStore α :=
  ((reloadStore s).file.getD i default, reloadStore s)

/-- A `MerkleTree` whose two stores are disk-backed. -/
structure DiskTree (α : Type) where
  leaves : DiskMmapStore α
  topHalf : DiskMmapStore α
  leafs : Nat
  height : Nat
  root : α
  deriving Repr, DecidableEq

/-- `MerkleTree::try_offload_store`:
`self.leaves.try_offload() && self.top_half.try_offload()` — the Rust `&&`
short-circuits, so the `top_half` call only happens when the leaves store
complied. -/
def tryOffloadStore (t : DiskTree α) : Bool × DiskTree α :=
  let r1 := tryOffload t.leaves
  if r1.1 then
    let r2 := tryOffload t.topHalf
    (r2.1, { t with leaves := r1.2, topHalf := r2.2 })
  else (false, { t with leaves := r1.2 })

/-- `MerkleTree::root` on a disk-backed tree: the cached copy. -/
def diskRoot (t : DiskTree α) : α := t.root

/-- `MerkleTree::len` on a disk-backed tree. -/
def diskLen (t : DiskTree α) : Nat := t.leaves.len + t.topHalf.len

/-- `MerkleTree::read_at` on a disk-backed tree, returning the value and the
tree with the (re)loaded mappings. -/
def diskTreeReadAt [Inhabited α] (t : DiskTree α) (i : Nat) :
    α × DiskTree α :=
  if i < t.leaves.len then
    let r := diskReadAt t.leaves i
    (r.1, { t with leaves := r.2 })
  else
    let r := diskReadAt t.topHalf (i - t.leaves.len)
    (r.1, { t with topHalf := r.2 })

/-- Value component of a disk-tree read (reloading never changes it). -/
def diskTreeValue [Inhabited α] (t : DiskTree α) (i : Nat) : α :=
  if i < t.leaves.len then t.leaves.file.getD i default
  else t.topHalf.file.getD (i - t.leaves.len) default

/-- `gen_proof` on a disk-backed tree: the same loop as `genProof`, reading
through the stores (each read reloads the mapping if needed; the values read
are `diskTreeValue`, as `diskTreeReadAt_value` shows). -/
def diskGenProof [Inhabited α] (t : DiskTree α) (i : Nat) :
    List α × List Bool :=
  let width := if t.leafs % 2 = 1 then t.leafs + 1 else t.leafs
  let rest := genProofLoop (diskTreeValue t) (diskLen t) (diskLen t) 0 i width
  (diskTreeValue t i :: rest.1 ++ [diskRoot t], rest.2)

theorem diskTreeReadAt_value [Inhabited α] (t : DiskTree α) (i : Nat) :
    (diskTreeReadAt t i).1 = diskTreeValue t i := by
  rw [diskTreeReadAt, diskTreeValue]
  split
  · rw [diskReadAt, reloadStore]
    split <;> rfl
  · rw [diskReadAt, reloadStore]
    split <;> rfl

/-- C6: after `try_offload_store()` on a tree backed by path-based disk
stores, every subsequent `root()`, `read_at(i)` (valid `i`) and
`gen_proof(i)` (valid leaf `i`) yields a value identical to the one before
the offload, and the mapping of the accessed store is transparently
re-created on the next access. -/
theorem offload_preserves_reads [Inhabited α] (t : DiskTree α)
    (hp1 : t.leaves.pathNonEmpty = true)
    (hp2 : t.topHalf.pathNonEmpty = true) :
    (diskRoot (tryOffloadStore t).2 = diskRoot t)
    ∧ (∀ i, i < diskLen t →
        (diskTreeReadAt (tryOffloadStore t).2 i).1 = (diskTreeReadAt t i).1)
    ∧ (∀ i, i < t.leafs →
        diskGenProof (tryOffloadStore t).2 i = diskGenProof t i)
    ∧ (∀ i, i < t.leaves.len →
        ((diskTreeReadAt (tryOffloadStore t).2 i).2).leaves.mapped = true) := by
  have hoff : (tryOffloadStore t).2
      = { t with leaves := { t.leaves with mapped := false },
                 topHalf := { t.topHalf with mapped := false } } := by
    rw [tryOffloadStore, tryOffload, tryOffload]
    simp [hp1, hp2]
  have hval : diskTreeValue (tryOffloadStore t).2 = diskTreeValue t := by
    funext i
    rw [hoff, diskTreeValue, diskTreeValue]
  have hlen : diskLen (tryOffloadStore t).2 = diskLen t := by
    rw [hoff, diskLen, diskLen]
  refine ⟨by rw [hoff, diskRoot, diskRoot], ?_, ?_, ?_⟩
  · intro i _
    rw [diskTreeReadAt_value, diskTreeReadAt_value, hval]
  · intro i _
    have hleafs2 : (tryOffloadStore t).2.leafs = t.leafs := by rw [hoff]
    have hroot2 : diskRoot (tryOffloadStore t).2 = diskRoot t := by
      rw [hoff, diskRoot, diskRoot]
    simp only [diskGenProof, hval, hlen, hleafs2, hroot2]
  · intro i hi
    rw [hoff, diskTreeReadAt]
    split
    · rw [diskReadAt, reloadStore]
      simp
    · rename_i hcon
      exact absurd hi (by simpa using hcon)

/-- Concrete disk-backed tree used by the closed witnesses: both stores are
path-backed and mapped; the `top_half` ends with the cached root. -/
def diskTreeExample : DiskTree Nat :=
  { leaves := { file := [3, 5], mapped := true, len := 2, storeSize := 2,
                pathNonEmpty := true },
    topHalf := { file := [813], mapped := true, len := 1, storeSize := 2,
                 pathNonEmpty := true },
    leafs := 2, height := 2, root := 813 }

theorem offload_preserves_reads_witness :
    (diskRoot (tryOffloadStore diskTreeExample).2 = diskRoot diskTreeExample)
    ∧ (∀ i, i < diskLen diskTreeExample →
        (diskTreeReadAt (tryOffloadStore diskTreeExample).2 i).1
          = (diskTreeReadAt diskTreeExample i).1)
    ∧ (∀ i, i < diskTreeExample.leafs →
        diskGenProof (tryOffloadStore diskTreeExample).2 i
          = diskGenProof diskTreeExample i)
    ∧ (∀ i, i < diskTreeExample.leaves.len →
        ((diskTreeReadAt (tryOffloadStore diskTreeExample).2 i).2).leaves.mapped
          = true) :=
  offload_preserves_reads diskTreeExample rfl rfl

/-- C9 counterexample: with a path-less (non-complying) leaves store and a
path-backed `top_half`, `try_offload_store` never invokes `try_offload` on
the `top_half` store — it stays mapped — even though that store would have
complied.  The claim's "in particular" clause is therefore false on the
code: `&&` short-circuits. -/
def diskTreeShort : DiskTree Nat :=
  { leaves := { file := [3, 5], mapped := true, len := 2, storeSize := 2,
                pathNonEmpty := false },
    topHalf := { file := [813], mapped := true, len := 1, storeSize := 2,
                 pathNonEmpty := true },
    leafs := 2, height := 2, root := 813 }

theorem tryOffloadStore_shortcircuit_cex :
    ((tryOffload diskTreeShort.topHalf).1 = true)
    ∧ ((tryOffloadStore diskTreeShort).2.topHalf.mapped = true)
    ∧ ((tryOffloadStore diskTreeShort).2.topHalf
        ≠ (tryOffload diskTreeShort.topHalf).2) := by
  refine ⟨rfl, rfl, ?_⟩
  decide

/-- C9 (amended): `try_offload_store` evaluates
`leaves.try_offload() && top_half.try_offload()` with Rust's short-circuit:
the result is `true` iff both stores comply, but `try_offload` runs on the
`top_half` store only when the leaves store complied — otherwise the
`top_half` store is left untouched. -/
theorem tryOffloadStore_spec (t : DiskTree α) :
    ((tryOffloadStore t).1
      = ((tryOffload t.leaves).1 && (tryOffload t.topHalf).1))
    ∧ ((tryOffloadStore t).2.topHalf
        = (if (tryOffload t.leaves).1 then (tryOffload t.topHalf).2
           else t.topHalf))
    ∧ ((tryOffloadStore t).2.leaves = (tryOffload t.leaves).2) := by
  cases hb : (tryOffload t.leaves).1
  · simp [tryOffloadStore, hb]
  · simp [tryOffloadStore, hb]

/-- C8 counterexample: `from_byte_slice(concat L)` stores the decoded
elements of `L` directly as leaves (no `leaf` hashing), while
`from_iter(L.map(leaf))` hashes every incoming item once more, so on
`L = [1, 2]` with the concrete algebra the two roots differ. -/
theorem from_byte_slice_cex :
    rootFn (fromByteSlice natNode [1, 2])
      ≠ rootFn (fromIter natNode natLeaf ([1, 2].map natLeaf)) := by
  have e1 : rootFn (fromByteSlice natNode [1, 2]) = 123 := by
    show (fromByteSlice natNode [1, 2]).root = 123
    rw [show fromByteSlice natNode [1, 2]
        = build natNode [1, 2] [] 2 (log2Pow2 (2 * nextPow2 2)) from rfl,
      build_eq_of natNode [1, 2] 2 _ rfl (by decide)]
    show (topFrom natNode 1 (rawLevel natNode [1, 2] 1)).getD
        ((topFrom natNode 1 (rawLevel natNode [1, 2] 1)).length - 1)
        default = 123
    rw [show rawLevel natNode [1, 2] 1 = [123] from by decide, topFrom]
    simp
  have e2 : rootFn (fromIter natNode natLeaf ([1, 2].map natLeaf)) = 813 := by
    show (fromIter natNode natLeaf ([1, 2].map natLeaf)).root = 813
    rw [show ([1, 2].map natLeaf) = [3, 5] from by decide,
      fromIter_eq natNode natLeaf [3, 5] (by decide)]
    show (topFrom natNode 1 (rawLevel natNode ([3, 5].map natLeaf) 1)).getD
        ((topFrom natNode 1
          (rawLevel natNode ([3, 5].map natLeaf) 1)).length - 1)
        default = 813
    rw [show rawLevel natNode ([3, 5].map natLeaf) 1 = [813] from by decide,
      topFrom]
    simp
  rw [e1, e2]
  decide

/-- C8 (amended): `from_byte_slice` over the concatenated bytes of the
**already leaf-hashed** elements builds exactly the same tree — same root
and same stored nodes, hence the same proof lemmas — as `from_iter` over the
raw elements: `from_byte_slice(concat(L.map(leaf))) ≡ from_iter(L)`.
(The claim's version, without the pre-hashing on the byte side, is refuted
by `from_byte_slice_cex`: `from_iter` applies `Algorithm::leaf` to every
incoming element, `from_byte_slice` stores the decoded bytes unhashed.) -/
theorem from_byte_slice_prehashed_equiv [Inhabited α]
    (node : α → α → Nat → α) (leafH : α → α) (items : List α)
    (h2 : 2 ≤ items.length) :
    fromByteSlice node (items.map leafH) = fromIter node leafH items := by
  show build node (items.map leafH) [] (items.map leafH).length
      (log2Pow2 (2 * nextPow2 (items.map leafH).length))
    = build node (items.map leafH) [] items.length
        (log2Pow2 (2 * nextPow2 items.length))
  rw [List.length_map]

theorem from_byte_slice_prehashed_equiv_witness :
    fromByteSlice natNode ([7, 8, 9].map natLeaf)
      = fromIter natNode natLeaf [7, 8, 9] :=
  from_byte_slice_prehashed_equiv natNode natLeaf [7, 8, 9] (by decide)

/-! ## Chunk scheduling determinism

The parallel dispatch in `build` executes the chunk closures in an
unspecified order.  The development below shows the sequential in-order
fold (the model of record) is invariant under every permutation of the
chunk list: each chunk reads only the already-complete previous level and
writes a range disjoint from every other chunk's range, so the chunk
operations commute. -/

theorem getD_take [Inhabited α] (l : List α) (n j : Nat) (h : j < n) :
    (l.take n).getD j default = l.getD j default := by
  rw [List.getD_eq_getElem?_getD, List.getD_eq_getElem?_getD,
    List.getElem?_take, if_pos h]

theorem getD_drop [Inhabited α] (l : List α) (n j : Nat) :
    (l.drop n).getD j default = l.getD (n + j) default := by
  rw [List.getD_eq_getElem?_getD, List.getD_eq_getElem?_getD,
    List.getElem?_drop]

theorem getD_replicate_default [Inhabited α] (k j : Nat) :
    (List.replicate k (default : α)).getD j default = default := by
  rcases lt_or_ge j k with h | h
  · rw [List.getD_eq_getElem _ _ (by simpa using h), List.getElem_replicate]
  · exact List.getD_eq_default _ _ (by simpa using h)

theorem list_ext_getD [Inhabited α] (s t : List α) (hlen : s.length = t.length)
    (h : ∀ j, s.getD j default = t.getD j default) : s = t := by
  apply List.ext_getElem hlen
  intro j hj hj'
  have hh := h j
  rwa [List.getD_eq_getElem s default hj, List.getD_eq_getElem t default hj']
    at hh

theorem length_writeRange [Inhabited α] (s buf : List α) (st : Nat) :
    (writeRange s buf st).length = max s.length (st + buf.length) := by
  simp only [writeRange, List.length_append, List.length_take,
    List.length_drop, List.length_replicate]
  omega

theorem getD_splice [Inhabited α] (R buf : List α) (st j : Nat)
    (hst : st ≤ R.length) :
    (R.take st ++ buf ++ R.drop (st + buf.length)).getD j default
      = if st ≤ j ∧ j < st + buf.length then buf.getD (j - st) default
        else R.getD j default := by
  have htl : (R.take st).length = st := by
    rw [List.length_take]; omega
  rcases lt_or_ge j st with hj | hj
  · rw [List.append_assoc, getD_append_left _ _ j (by omega),
      getD_take _ _ _ hj, if_neg (by omega)]
  · rw [List.append_assoc, getD_append_right _ _ j (by omega), htl]
    rcases lt_or_ge j (st + buf.length) with hj2 | hj2
    · rw [getD_append_left _ _ _ (by omega), if_pos ⟨hj, hj2⟩]
    · rw [getD_append_right _ _ _ (by omega), getD_drop, if_neg (by omega)]
      congr 1
      omega

/-- `write_range` splices the buffer over `[start, start + |buf|)` and
leaves everything else (below, above, and default padding) unchanged. -/
theorem getD_writeRange [Inhabited α] (s buf : List α) (st j : Nat) :
    (writeRange s buf st).getD j default
      = if st ≤ j ∧ j < st + buf.length then buf.getD (j - st) default
        else s.getD j default := by
  have hres : ∀ i : Nat,
      (s ++ List.replicate (st + buf.length - s.length) (default : α)).getD i
          default = s.getD i default := by
    intro i
    rcases lt_or_ge i s.length with h | h
    · exact getD_append_left _ _ i h
    · rw [getD_append_right _ _ i h, getD_replicate_default,
        List.getD_eq_default _ _ h]
  simp only [writeRange]
  rw [getD_splice _ _ _ _
    (by rw [List.length_append, List.length_replicate]; omega)]
  simp only [hres]

theorem take_writeRange [Inhabited α] (s buf : List α) (st m : Nat)
    (hm : m ≤ st) (hs : m ≤ s.length) :
    (writeRange s buf st).take m = s.take m := by
  apply list_ext_getD
  · rw [List.length_take, List.length_take, length_writeRange]
    omega
  · intro j
    rcases lt_or_ge j m with hj | hj
    · rw [getD_take _ _ _ hj, getD_take _ _ _ hj, getD_writeRange,
        if_neg (by omega)]
    · rw [List.getD_eq_default _ _ (le_trans (List.length_take_le _ _) hj),
        List.getD_eq_default _ _ (le_trans (List.length_take_le _ _) hj)]

theorem take_drop_congr {β : Type} (s t : List β) (ci n m : Nat)
    (h : ci + n ≤ m) (hst : s.take m = t.take m) :
    (s.drop ci).take n = (t.drop ci).take n := by
  have key : ∀ u : List β, ((u.take m).drop ci).take n = (u.drop ci).take n := by
    intro u
    rw [List.drop_take, List.take_take]
    congr 1
    omega
  rw [← key s, ← key t, hst]

/-- The state-independent description of one chunk of `build`: read the
chunk's slice of the *completed* previous level `src`, hash the pairs, and
splice them at the chunk's own write offset. -/
def chunkOpPure [Inhabited α] (node : α → α → Nat → α)
    (lev rs ws wtot : Nat) (src : List α) (s : List α) (ci : Nat) : List α :=
  writeRange s
    (hashPairs node lev ((src.drop ci).take (min chunkSize (rs + wtot - ci))))
    (ws + (ci - rs) / 2)

/-- Read confinement: on any state that agrees with the entry state below
the write start (an invariant of the level's whole fold), a chunk operation
reads only the previous level `src` — it equals the pure description. -/
theorem chunkOp_eq_pure [Inhabited α] (node : α → α → Nat → α)
    (lev rs ws wtot : Nat) (leaves s0 src s : List α)
    (hsrcdef : src = if lev = 0 then leaves else s0)
    (hsrc : rs + wtot ≤ src.length) (hws : ws = s0.length)
    (ci : Nat) (hci : ci ∈ chunkIndices rs wtot)
    (hlen : ws ≤ s.length) (hpre : s.take ws = s0.take ws) :
    chunkOp node lev rs ws wtot leaves s ci
      = chunkOpPure node lev rs ws wtot src s ci := by
  obtain ⟨k, hk, rfl⟩ := mem_chunkIndices _ _ _ hci
  have hread : ((if lev = 0 then leaves else s).drop (rs + k * chunkSize)).take
        (min chunkSize (rs + wtot - (rs + k * chunkSize)))
      = (src.drop (rs + k * chunkSize)).take
        (min chunkSize (rs + wtot - (rs + k * chunkSize))) := by
    rcases Nat.eq_zero_or_pos lev with h0 | hpos
    · simp only [h0, if_true, hsrcdef, if_pos rfl]
    · have hne : ¬ lev = 0 := by omega
      have hs0 : src = s0 := by simp [hsrcdef, hne]
      simp only [hne, if_false]
      refine take_drop_congr s src _ _ ws ?_ ?_
      · have hb : rs + wtot ≤ ws := by rw [hws, ← hs0]; exact hsrc
        simp only [chunkSize] at hk ⊢
        omega
      · rw [hs0, hpre]
  simp only [chunkOp, chunkOpPure, hread]

/-- The write windows of two distinct chunks of the same level are
disjoint: chunk `read_start + k * chunk_size` writes
`⌊chunk len / 2⌋ ≤ chunk_size / 2` parents starting at offset
`write_start + k * chunk_size / 2`. -/
theorem chunk_windows_disjoint (rs ws wtot ci1 ci2 : Nat)
    (h1 : ci1 ∈ chunkIndices rs wtot) (h2 : ci2 ∈ chunkIndices rs wtot)
    (hne : ci1 ≠ ci2) :
    ws + (ci1 - rs) / 2 + min chunkSize (rs + wtot - ci1) / 2
        ≤ ws + (ci2 - rs) / 2
    ∨ ws + (ci2 - rs) / 2 + min chunkSize (rs + wtot - ci2) / 2
        ≤ ws + (ci1 - rs) / 2 := by
  obtain ⟨k1, hk1, rfl⟩ := mem_chunkIndices _ _ _ h1
  obtain ⟨k2, hk2, rfl⟩ := mem_chunkIndices _ _ _ h2
  simp only [chunkSize] at *
  omega

theorem chunkBuf_length [Inhabited α] (node : α → α → Nat → α)
    (lev rs wtot : Nat) (src : List α) (hsrc : rs + wtot ≤ src.length)
    (ci : Nat) (hci : ci ∈ chunkIndices rs wtot) :
    (hashPairs node lev
        ((src.drop ci).take (min chunkSize (rs + wtot - ci)))).length
      = min chunkSize (rs + wtot - ci) / 2 := by
  obtain ⟨k, hk, rfl⟩ := mem_chunkIndices _ _ _ hci
  rw [length_hashPairs, List.length_take, List.length_drop]
  simp only [chunkSize] at *
  omega

/-- Two distinct chunk operations of the same level commute: they read the
same fixed source and write disjoint ranges. -/
theorem chunkOpPure_comm [Inhabited α] (node : α → α → Nat → α)
    (lev rs ws wtot : Nat) (src : List α) (hsrc : rs + wtot ≤ src.length)
    (ci1 ci2 : Nat) (h1 : ci1 ∈ chunkIndices rs wtot)
    (h2 : ci2 ∈ chunkIndices rs wtot) (s : List α) :
    chunkOpPure node lev rs ws wtot src
        (chunkOpPure node lev rs ws wtot src s ci1) ci2
      = chunkOpPure node lev rs ws wtot src
          (chunkOpPure node lev rs ws wtot src s ci2) ci1 := by
  rcases eq_or_ne ci1 ci2 with rfl | hne
  · rfl
  · have hd := chunk_windows_disjoint rs ws wtot ci1 ci2 h1 h2 hne
    have hL1 := chunkBuf_length node lev rs wtot src hsrc ci1 h1
    have hL2 := chunkBuf_length node lev rs wtot src hsrc ci2 h2
    apply list_ext_getD
    · simp only [chunkOpPure, length_writeRange, hL1, hL2]
      omega
    · intro j
      simp only [chunkOpPure, getD_writeRange, hL1, hL2]
      split_ifs <;> first | rfl | (exfalso; omega)

/-- Along any list of chunk indices of the level, the in-place fold of the
real chunk operation equals the fold of the pure description. -/
theorem foldl_chunkOp_eq_pure [Inhabited α] (node : α → α → Nat → α)
    (lev rs ws wtot : Nat) (leaves s0 src : List α)
    (hsrcdef : src = if lev = 0 then leaves else s0)
    (hsrc : rs + wtot ≤ src.length) (hws : ws = s0.length) :
    ∀ (l : List Nat) (s : List α), (∀ ci ∈ l, ci ∈ chunkIndices rs wtot) →
      ws ≤ s.length → s.take ws = s0.take ws →
      l.foldl (chunkOp node lev rs ws wtot leaves) s
        = l.foldl (chunkOpPure node lev rs ws wtot src) s
  | [], s, _, _, _ => rfl
  | ci :: l, s, hmem, hlen, hpre => by
    rw [List.foldl_cons, List.foldl_cons,
      chunkOp_eq_pure node lev rs ws wtot leaves s0 src s hsrcdef hsrc hws ci
        (hmem ci (List.mem_cons_self ci l)) hlen hpre]
    refine foldl_chunkOp_eq_pure node lev rs ws wtot leaves s0 src hsrcdef
      hsrc hws l _ (fun c hc => hmem c (List.mem_cons_of_mem _ hc)) ?_ ?_
    · simp only [chunkOpPure, length_writeRange]
      omega
    · rw [chunkOpPure,
        take_writeRange _ _ _ _ (Nat.le_add_right _ _) hlen, hpre]

/-- Permutation invariance of one level's chunk fold: executing the chunks
of the level in any order yields the same store. -/
theorem foldl_chunkOp_perm [Inhabited α] (node : α → α → Nat → α)
    (lev rs ws wtot : Nat) (leaves s0 src : List α)
    (hsrcdef : src = if lev = 0 then leaves else s0)
    (hsrc : rs + wtot ≤ src.length) (hws : ws = s0.length)
    (π : List Nat) (hperm : π.Perm (chunkIndices rs wtot)) :
    π.foldl (chunkOp node lev rs ws wtot leaves) s0
      = (chunkIndices rs wtot).foldl (chunkOp node lev rs ws wtot leaves) s0 := by
  rw [foldl_chunkOp_eq_pure node lev rs ws wtot leaves s0 src hsrcdef hsrc hws
      π s0 (fun c hc => hperm.subset hc) (le_of_eq hws) rfl,
    foldl_chunkOp_eq_pure node lev rs ws wtot leaves s0 src hsrcdef hsrc hws
      (chunkIndices rs wtot) s0 (fun _ hc => hc) (le_of_eq hws) rfl]
  refine hperm.foldl_eq' ?_ s0
  intro x hx y hy z
  exact chunkOpPure_comm node lev rs ws wtot src hsrc x y (hperm.subset hx)
    (hperm.subset hy) z

/-- The level loop of `build` with the chunks of every level executed in
the order given by the schedule `σ` (any function producing a permutation
of the chunk list models one interleaving of the parallel dispatch). -/
def buildLoopSched [Inhabited α] (σ : Nat → List Nat → List Nat)
    (node : α → α → Nat → α) (leaves topHalf : List α)
    (level width levelNodeIndex : Nat) : List α × List α :=
  if _h : width ≤ 1 then (leaves, topHalf)
  else
    let dup := width % 2 = 1
    let leaves' := if dup ∧ level = 0 then
        leaves ++ [leaves.getD (leaves.length - 1) default] else leaves
    let topHalf' := if dup ∧ level ≠ 0 then
        topHalf ++ [topHalf.getD (topHalf.length - 1) default] else topHalf
    let width' := if dup then width + 1 else width
    let readStart := if level = 0 then 0 else levelNodeIndex - leaves'.length
    let writeStart := if level = 0 then 0 else readStart + width'
    let topHalf'' := (σ level (chunkIndices readStart width')).foldl
        (chunkOp node level readStart writeStart width' leaves') topHalf'
    buildLoopSched σ node leaves' topHalf'' (level + 1) (width' >>> 1)
      (levelNodeIndex + width')
termination_by width
decreasing_by
  simp only [Nat.shiftRight_one]
  split <;> omega

theorem buildLoopSched_from [Inhabited α] (σ : Nat → List Nat → List Nat)
    (hσ : ∀ lev l, (σ lev l).Perm l) (node : α → α → Nat → α)
    (cur prev leaves : List α) (lev : Nat) (hlev : 1 ≤ lev) :
    buildLoopSched σ node leaves (prev ++ cur) lev cur.length
        (leaves.length + prev.length)
      = (leaves, prev ++ topFrom node lev cur) := by
  by_cases hw : cur.length ≤ 1
  · rw [buildLoopSched, topFrom]
    simp [hw]
  · have hlev0 : lev ≠ 0 := by omega
    have hcur : cur ≠ [] := by
      intro hnil; rw [hnil] at hw; simp at hw
    rw [buildLoopSched, dif_neg hw]
    simp only [hlev0, and_false, if_false, and_true, ne_eq,
      not_false_eq_true, if_true, if_false]
    rw [Nat.add_sub_cancel_left, padE_append prev cur hcur]
    have hwidth : (if cur.length % 2 = 1 then cur.length + 1 else cur.length)
        = (padE cur).length := by
      rw [length_padE]; split <;> omega
    rw [hwidth]
    rw [foldl_chunkOp_perm node lev prev.length
      (prev.length + (padE cur).length) (padE cur).length leaves
      (prev ++ padE cur) (prev ++ padE cur) (by simp [hlev0]) (by simp)
      (by simp) (σ lev (chunkIndices prev.length (padE cur).length))
      (hσ lev _)]
    have hfold := foldl_chunkOp node lev leaves (prev ++ padE cur)
      (prev ++ padE cur) prev.length (prev.length + (padE cur).length)
      (padE cur).length (by simp [hlev0]) (by simp)
      (by simp) (length_padE_even cur) (padE cur).length []
      le_rfl (length_padE_even cur) (by simp)
    simp only [Nat.sub_self, Nat.add_zero, List.append_nil] at hfold
    rw [List.drop_left, List.take_length] at hfold
    rw [hfold, Nat.shiftRight_one, ← length_hashPairs node lev (padE cur)]
    have hlni : leaves.length + prev.length + (padE cur).length
        = leaves.length + (prev ++ padE cur).length := by
      rw [List.length_append]; omega
    rw [hlni,
      buildLoopSched_from σ hσ node (hashPairs node lev (padE cur))
        (prev ++ padE cur) leaves (lev + 1) (by omega)]
    conv_rhs => rw [topFrom, if_neg hw]
    rw [List.append_assoc]
termination_by cur.length
decreasing_by
  rw [length_hashPairs, length_padE]
  omega

theorem buildLoopSched_zero [Inhabited α] (σ : Nat → List Nat → List Nat)
    (hσ : ∀ lev l, (σ lev l).Perm l) (node : α → α → Nat → α)
    (lhs : List α) (h2 : 2 ≤ lhs.length) :
    buildLoopSched σ node lhs [] 0 lhs.length 0
      = (padE lhs, topFrom node 1 (hashPairs node 0 (padE lhs))) := by
  have hw : ¬ lhs.length ≤ 1 := by omega
  have hcur : lhs ≠ [] := by
    intro hnil; rw [hnil] at h2; simp at h2
  rw [buildLoopSched, dif_neg hw]
  simp only [and_true, ne_eq, not_true_eq_false, and_false, if_false, if_true]
  have hpad : (if lhs.length % 2 = 1 then
      lhs ++ [lhs.getD (lhs.length - 1) default] else lhs) = padE lhs := by
    unfold padE; rfl
  rw [hpad]
  have hwidth : (if lhs.length % 2 = 1 then lhs.length + 1 else lhs.length)
      = (padE lhs).length := by
    rw [length_padE]; split <;> omega
  rw [hwidth]
  rw [foldl_chunkOp_perm node 0 0 0 (padE lhs).length (padE lhs) [] (padE lhs)
    (by simp) (by simp) rfl (σ 0 (chunkIndices 0 (padE lhs).length)) (hσ 0 _)]
  have hfold := foldl_chunkOp node 0 (padE lhs) [] (padE lhs) 0 0
    (padE lhs).length (by simp) (by simp) (by simp) (length_padE_even lhs)
    (padE lhs).length [] le_rfl (length_padE_even lhs) (by simp)
  simp only [Nat.sub_self, Nat.add_zero, Nat.zero_add, List.append_nil,
    List.nil_append, List.drop_zero, List.take_length] at hfold
  rw [hfold, Nat.shiftRight_one, ← length_hashPairs node 0 (padE lhs)]
  have hmain := buildLoopSched_from σ hσ node (hashPairs node 0 (padE lhs)) []
    (padE lhs) 1 le_rfl
  simpa using hmain

theorem buildLoopSched_eq_buildLoop [Inhabited α]
    (σ : Nat → List Nat → List Nat) (hσ : ∀ lev l, (σ lev l).Perm l)
    (node : α → α → Nat → α) (lhs : List α) (n : Nat) (hn : n = lhs.length) :
    buildLoopSched σ node lhs [] 0 n 0 = buildLoop node lhs [] 0 n 0 := by
  subst hn
  by_cases h2 : 2 ≤ lhs.length
  · rw [buildLoopSched_zero σ hσ node lhs h2, buildLoop_zero node lhs h2]
  · have h1 : lhs.length ≤ 1 := by omega
    rw [buildLoopSched, buildLoop]
    simp [h1]

/-- `build` under the schedule `σ`. -/
def buildSched [Inhabited α] (σ : Nat → List Nat → List Nat)
    (node : α → α → Nat → α) (leaves topHalf : List α)
    (leafs height : Nat) : MerkleTree α :=
  let p := buildLoopSched σ node leaves topHalf 0 leafs 0
  { leaves := p.1, topHalf := p.2, leafs := leafs, height := height
    root := p.2.getD (p.2.length - 1) default }

/-- `from_iter` under the schedule `σ`. -/
def fromIterSched [Inhabited α] (σ : Nat → List Nat → List Nat)
    (node : α → α → Nat → α) (leafH : α → α) (items : List α) :
    MerkleTree α :=
  let leafs := items.length
  let pow := nextPow2 leafs
  buildSched σ node (items.map leafH) [] leafs (log2Pow2 (2 * pow))

theorem fromIterSched_eq_fromIter [Inhabited α]
    (σ : Nat → List Nat → List Nat) (hσ : ∀ lev l, (σ lev l).Perm l)
    (node : α → α → Nat → α) (leafH : α → α) (items : List α) :
    fromIterSched σ node leafH items = fromIter node leafH items := by
  simp only [fromIterSched, fromIter, buildSched, build]
  rw [buildLoopSched_eq_buildLoop σ hσ node (items.map leafH) items.length
    (by simp)]

/-- C10: the built tree is a deterministic function of the leaf sequence
despite the parallel chunk dispatch.  (1) Read confinement: on any store
state agreeing with the level's entry state below the write start, a chunk
operation only reads its slice of the completed previous level and splices
the hashed parents at `write_start + (chunk_index - read_start) / 2`.
(2) The write ranges of distinct chunks of a level are disjoint.  (3) One
level's chunk fold is invariant under every permutation of the chunk list.
(4) Hence `from_iter` under any chunk schedule yields the identical tree —
same stores, same root, and the same generated proofs. -/
theorem build_chunk_determinism [Inhabited α] (node : α → α → Nat → α) :
    (∀ (lev rs ws wtot : Nat) (leaves s0 src s : List α),
        src = (if lev = 0 then leaves else s0) →
        rs + wtot ≤ src.length → ws = s0.length →
        ∀ ci ∈ chunkIndices rs wtot,
          ws ≤ s.length → s.take ws = s0.take ws →
          chunkOp node lev rs ws wtot leaves s ci
            = writeRange s
                (hashPairs node lev
                  ((src.drop ci).take (min chunkSize (rs + wtot - ci))))
                (ws + (ci - rs) / 2))
    ∧ (∀ rs ws wtot : Nat, ∀ ci1 ∈ chunkIndices rs wtot,
        ∀ ci2 ∈ chunkIndices rs wtot, ci1 ≠ ci2 →
          ws + (ci1 - rs) / 2 + min chunkSize (rs + wtot - ci1) / 2
              ≤ ws + (ci2 - rs) / 2
          ∨ ws + (ci2 - rs) / 2 + min chunkSize (rs + wtot - ci2) / 2
              ≤ ws + (ci1 - rs) / 2)
    ∧ (∀ (lev rs wtot : Nat) (leaves s0 src : List α) (π : List Nat),
        src = (if lev = 0 then leaves else s0) →
        rs + wtot ≤ src.length →
        π.Perm (chunkIndices rs wtot) →
        π.foldl (chunkOp node lev rs s0.length wtot leaves) s0
          = (chunkIndices rs wtot).foldl
              (chunkOp node lev rs s0.length wtot leaves) s0)
    ∧ (∀ (leafH : α → α) (items : List α) (σ : Nat → List Nat → List Nat),
        (∀ lev l, (σ lev l).Perm l) →
        fromIterSched σ node leafH items = fromIter node leafH items
        ∧ rootFn (fromIterSched σ node leafH items)
            = rootFn (fromIter node leafH items)
        ∧ ∀ i, genProof (fromIterSched σ node leafH items) i
            = genProof (fromIter node leafH items) i) := by
  refine ⟨?_, ?_, ?_, ?_⟩
  · intro lev rs ws wtot leaves s0 src s h1 h2 h3 ci hci h4 h5
    exact chunkOp_eq_pure node lev rs ws wtot leaves s0 src s h1 h2 h3 ci hci
      h4 h5
  · intro rs ws wtot ci1 h1 ci2 h2 hne
    exact chunk_windows_disjoint rs ws wtot ci1 ci2 h1 h2 hne
  · intro lev rs wtot leaves s0 src π h1 h2 hperm
    exact foldl_chunkOp_perm node lev rs s0.length wtot leaves s0 src h1 h2
      rfl π hperm
  · intro leafH items σ hσ
    have he := fromIterSched_eq_fromIter σ hσ node leafH items
    exact ⟨he, by rw [he], fun i => by rw [he]⟩

theorem build_chunk_determinism_witness :
    fromIterSched (fun _ l => l.reverse) natNode natLeaf [5, 6, 7]
      = fromIter natNode natLeaf [5, 6, 7] :=
  ((build_chunk_determinism natNode).2.2.2 natLeaf [5, 6, 7]
    (fun _ l => l.reverse) (fun _ l => List.reverse_perm l)).1

/-! ## Store operation bounds, per variant

The Rust stores report these failures by panicking (`assert!` or slice
indexing); the model returns `Except StoreError` with the spec's error
categories.  All byte arithmetic (`i * byte_len` …) is divided out: every
assert compares whole multiples of `E::byte_len()`. -/

inductive StoreError
  | outOfBounds
  | insufficientCapacity
  deriving Repr, DecidableEq

/-- `VecStore::write_at`: `if self.0.len() <= i { resize(i + 1, default) };
self.0[i] = el` — never fails, any index grows the vector. -/
def vecWriteAt [Inhabited α] (v : List α) (el : α) (i : Nat) :
    Except StoreError (List α) :=
  let v' := if v.length ≤ i
    then v ++ List.replicate (i + 1 - v.length) default else v
  .ok (v'.set i el)

/-- `VecStore::push`: `Vec::push` — always succeeds, the vector grows. -/
def vecPush (v : List α) (el : α) : Except StoreError (List α) :=
  .ok (v ++ [el])

/-- `VecStore::read_at`: `self.0[i].clone()` — index panic when
`i ≥ len`. -/
def vecReadAt [Inhabited α] (v : List α) (i : Nat) : Except StoreError α :=
  if i < v.length then .ok (v.getD i default) else .error .outOfBounds

/-- `VecStore::read_into`: `self.0[i].copy_to_slice(buf)` — same indexing
as `read_at`. -/
def vecReadInto [Inhabited α] (v : List α) (i : Nat) : Except StoreError α :=
  vecReadAt v i

/-- `VecStore::read_range`: `self.0.index(start..end).to_vec()` — slice
panic unless `start ≤ end ≤ len`. -/
def vecReadRange (v : List α) (start stop : Nat) :
    Except StoreError (List α) :=
  if start ≤ stop ∧ stop ≤ v.length
  then .ok ((v.drop start).take (stop - start)) else .error .outOfBounds

/-- Anonymous memory map store: a fixed-size mapping (`store`, the
capacity) and the used-slot counter `len`. -/
structure MmapStore (α : Type) where
  store : List α
  len : Nat
  deriving Repr, DecidableEq

/-- `MmapStore::read_at`: asserts `start < len * b` and `end ≤ len * b`,
i.e. `i < len`. -/
def mmapReadAt [Inhabited α] (s : MmapStore α) (i : Nat) :
    Except StoreError α :=
  if i < s.len then .ok (s.store.getD i default) else .error .outOfBounds

/-- `MmapStore::read_into`: same asserts as `read_at`. -/
def mmapReadInto [Inhabited α] (s : MmapStore α) (i : Nat) :
    Except StoreError α :=
  mmapReadAt s i

/-- `MmapStore::read_range`: asserts `start * b < len * b` and
`end * b ≤ len * b`. -/
def mmapReadRange (s : MmapStore α) (start stop : Nat) :
    Except StoreError (List α) :=
  if start < s.len ∧ stop ≤ s.len
  then .ok ((s.store.drop start).take (stop - start))
  else .error .outOfBounds

/-- `MmapStore::write_at`: copies into `store[i*b..(i+1)*b]` — the only
check is the slice bound against the mapping size (the capacity), not
against `len`; `len` is incremented unconditionally. -/
def mmapWriteAt (s : MmapStore α) (el : α) (i : Nat) :
    Except StoreError (MmapStore α) :=
  if i < s.store.length
  then .ok { store := s.store.set i el, len := s.len + 1 }
  else .error .outOfBounds

/-- `MmapStore::push`: asserts `(len + 1) * b ≤ store.len()`
(`"not enough space"`), then `write_at(el, len)`. -/
def mmapPush (s : MmapStore α) (el : α) :
    Except StoreError (MmapStore α) :=
  if s.len + 1 ≤ s.store.length then mmapWriteAt s el s.len
  else .error .insufficientCapacity

/-- `DiskMmapStore::read_at`: asserts `i < len`, then reloads the mapping
and reads. -/
def diskReadAtE [Inhabited α] (s : DiskMmapStore α) (i : Nat) :
    Except StoreError (α × DiskMmapStore α) :=
  if i < s.len then .ok (diskReadAt s i) else .error .outOfBounds

/-- `DiskMmapStore::read_into`: the same asserts as `read_at`
(`i * b < len * b` and `(i + 1) * b ≤ len * b`, i.e. `i < len`), then
`store_read_into` reloads the mapping and copies the element's bytes out —
the same reload-and-read as `read_at`. -/
def diskReadIntoE [Inhabited α] (s : DiskMmapStore α) (i : Nat) :
    Except StoreError (α × DiskMmapStore α) :=
  diskReadAtE s i

/-- `DiskMmapStore::write_at`: `store_copy_from_slice(i*b, (i+1)*b, ..)` —
checked only against the mapping size (`store_size`); `len` incremented
unconditionally. -/
def diskWriteAtE (s : DiskMmapStore α) (el : α) (i : Nat) :
    Except StoreError (DiskMmapStore α) :=
  if i < s.storeSize
  then .ok { (reloadStore s) with file := s.file.set i el, len := s.len + 1 }
  else .error .outOfBounds

/-- `DiskMmapStore::push`: asserts `(len + 1) * b ≤ store_size()`
(`"not enough space"`), then `write_at(el, len)`. -/
def diskPushE (s : DiskMmapStore α) (el : α) :
    Except StoreError (DiskMmapStore α) :=
  if s.len + 1 ≤ s.storeSize then diskWriteAtE s el s.len
  else .error .insufficientCapacity

/-- `DiskMmapStore::read_range`: asserts `start * b < len * b` and
`end * b ≤ len * b`. -/
def diskReadRangeE [Inhabited α] (s : DiskMmapStore α) (start stop : Nat) :
    Except StoreError (List α) :=
  if start < s.len ∧ stop ≤ s.len
  then .ok (((reloadStore s).file.drop start).take (stop - start))
  else .error .outOfBounds

/-- C7 counterexample: the claim requires `write_at` at an index greater
than `len` to fail with `OutOfBounds` on every store variant, but
`VecStore::write_at` on an empty store at index 2 succeeds — it resizes
with defaults and writes. -/
theorem store_bounds_cex :
    vecWriteAt ([] : List Nat) 7 2 = Except.ok [0, 0, 7] := by rfl

/-- C7 (amended): the out-of-bounds checks hold for the *read* operations of
every variant (`read_at`, `read_into` at `i ≥ len`, `read_range` whose
upper bound exceeds `len`, all `OutOfBounds`), and `push` on a *fixed
capacity* store (`MmapStore`, `DiskMmapStore`) at capacity fails with
`InsufficientCapacity`; but `write_at` performs no `len` bound check on any
variant — `VecStore` grows to any index and the mmap variants accept any
index within capacity — and `VecStore::push` never fails. -/
theorem store_bounds_spec [Inhabited α] :
    (∀ (v : List α) i, v.length ≤ i →
      vecReadAt v i = .error .outOfBounds
      ∧ vecReadInto v i = .error .outOfBounds)
    ∧ (∀ (v : List α) start stop, v.length < stop →
        vecReadRange v start stop = .error .outOfBounds)
    ∧ (∀ (v : List α) el i, (vecWriteAt v el i).isOk = true)
    ∧ (∀ (v : List α) el, (vecPush v el).isOk = true)
    ∧ (∀ (s : MmapStore α) i, s.len ≤ i →
        mmapReadAt s i = .error .outOfBounds
        ∧ mmapReadInto s i = .error .outOfBounds)
    ∧ (∀ (s : MmapStore α) start stop, s.len < stop →
        mmapReadRange s start stop = .error .outOfBounds)
    ∧ (∀ (s : MmapStore α) el i, i < s.store.length →
        (mmapWriteAt s el i).isOk = true)
    ∧ (∀ (s : MmapStore α) el, s.store.length ≤ s.len →
        mmapPush s el = .error .insufficientCapacity)
    ∧ (∀ (s : DiskMmapStore α) i, s.len ≤ i →
        diskReadAtE s i = .error .outOfBounds
        ∧ diskReadIntoE s i = .error .outOfBounds)
    ∧ (∀ (s : DiskMmapStore α) start stop, s.len < stop →
        diskReadRangeE s start stop = .error .outOfBounds)
    ∧ (∀ (s : DiskMmapStore α) el i, i < s.storeSize →
        (diskWriteAtE s el i).isOk = true)
    ∧ (∀ (s : DiskMmapStore α) el, s.storeSize ≤ s.len →
        diskPushE s el = .error .insufficientCapacity) := by
  refine ⟨?_, ?_, ?_, ?_, ?_, ?_, ?_, ?_, ?_, ?_, ?_, ?_⟩
  · intro v i h
    refine ⟨?_, ?_⟩
    · rw [vecReadAt, if_neg (by omega)]
    · rw [vecReadInto, vecReadAt, if_neg (by omega)]
  · intro v start stop h
    rw [vecReadRange, if_neg (by omega)]
  · intro v el i
    rw [vecWriteAt]
    rfl
  · intro v el
    rfl
  · intro s i h
    refine ⟨?_, ?_⟩
    · rw [mmapReadAt, if_neg (by omega)]
    · rw [mmapReadInto, mmapReadAt, if_neg (by omega)]
  · intro s start stop h
    rw [mmapReadRange, if_neg (by omega)]
  · intro s el i h
    rw [mmapWriteAt, if_pos h]
    rfl
  · intro s el h
    rw [mmapPush, if_neg (by omega)]
  · intro s i h
    refine ⟨?_, ?_⟩
    · rw [diskReadAtE, if_neg (by omega)]
    · rw [diskReadIntoE, diskReadAtE, if_neg (by omega)]
  · intro s start stop h
    rw [diskReadRangeE, if_neg (by omega)]
  · intro s el i h
    rw [diskWriteAtE, if_pos h]
    rfl
  · intro s el h
    rw [diskPushE, if_neg (by omega)]

theorem store_bounds_spec_witness :
    (vecReadAt ([4, 5] : List Nat) 7 = Except.error StoreError.outOfBounds
      ∧ vecReadInto ([4, 5] : List Nat) 7
          = Except.error StoreError.outOfBounds)
    ∧ (mmapPush { store := ([0, 0] : List Nat), len := 2 } 9
        = Except.error StoreError.insufficientCapacity) :=
  ⟨(@store_bounds_spec Nat _).1 [4, 5] 7 (by decide),
   (@store_bounds_spec Nat _).2.2.2.2.2.2.2.1
     { store := ([0, 0] : List Nat), len := 2 } 9 (by decide)⟩

end MerkleLight
